import Mathlib

/-!
Verification development for the RPD (curriculum document) parser backend.

The Python source (`backend/main.py`) is shallowly embedded: each extractor
or classifier becomes an executable Lean function over `String` / lists,
regular expressions are replaced by hand-rolled scanners with the same
(leftmost, greedy-with-backtracking) semantics on the fixed patterns the
source uses, and the stateful loops become folds or structural recursion.
-/

/-! ## Character classes (Python semantics restricted to the ASCII/Cyrillic corpus) -/

/-- Python `\s` / `str.strip()` whitespace, restricted to the characters that
can actually occur in this pipeline (ASCII whitespace plus NBSP). -/
def isPyWs (c : Char) : Bool :=
  c = ' ' || c = '\t' || c = '\n' || c = '\r' || c = '\x0b' || c = '\x0c' || c = '\xa0'

/-- ASCII digit (code points 48–57). -/
def isDigitCh (c : Char) : Bool := 48 ≤ c.toNat && c.toNat ≤ 57

/-- Uppercase Cyrillic А..Я (the source's `[А-Я]` class; `Ё` is outside it). -/
def isUpperRu (c : Char) : Bool := 1040 ≤ c.toNat && c.toNat ≤ 1071

/-- Lowercase Cyrillic а..я. -/
def isLowerRu (c : Char) : Bool := 1072 ≤ c.toNat && c.toNat ≤ 1103

/-- ASCII uppercase. -/
def isUpperLat (c : Char) : Bool := 65 ≤ c.toNat && c.toNat ≤ 90

/-- ASCII lowercase. -/
def isLowerLat (c : Char) : Bool := 97 ≤ c.toNat && c.toNat ≤ 122

/-- The source's sentence-boundary uppercase class `[А-ЯA-Z]`. -/
def isUpperRuLat (c : Char) : Bool := isUpperRu c || isUpperLat c

/-- Python `str.lower()` on the Latin/Cyrillic corpus the pipeline targets;
other characters are left unchanged. -/
def lowerCh (c : Char) : Char :=
  if isUpperLat c then Char.ofNat (c.toNat + 32)
  else if isUpperRu c then Char.ofNat (c.toNat + 32)
  else if c = 'Ё' then 'ё'
  else c

/-- Python `str.lower()` over a whole string. -/
def lowerStr (s : String) : String := String.mk (s.data.map lowerCh)

/-- Python `str.islower()` for a single character (cased and lowercase),
on the targeted corpus. -/
def isLowerPy (c : Char) : Bool := isLowerLat c || isLowerRu c || c = 'ё'

/-- Python `\w` word character (letters, digits, underscore) on the corpus. -/
def isWordCh (c : Char) : Bool :=
  isDigitCh c || isUpperLat c || isLowerLat c || isUpperRu c || isLowerRu c ||
  c = 'ё' || c = 'Ё' || c = '_'

/-! ## Python-style strip / join / substring helpers -/

/-- Python `str.strip()` (whitespace). -/
def pyStrip (s : String) : String :=
  String.mk (((s.data.dropWhile isPyWs).reverse.dropWhile isPyWs).reverse)

/-- Python `str.rstrip()` (whitespace). -/
def pyRstrip (s : String) : String :=
  String.mk ((s.data.reverse.dropWhile isPyWs).reverse)

/-- Python `str.lstrip()` (whitespace). -/
def pyLstrip (s : String) : String := String.mk (s.data.dropWhile isPyWs)

/-- Python `str.strip(chars)`: strip any of the given characters from both ends. -/
def pyStripChars (cs : List Char) (s : String) : String :=
  String.mk (((s.data.dropWhile (cs.contains ·)).reverse.dropWhile (cs.contains ·)).reverse)

/-- Python `str.rstrip(chars)`. -/
def pyRstripChars (cs : List Char) (s : String) : String :=
  String.mk ((s.data.reverse.dropWhile (cs.contains ·)).reverse)

/-- Sublist-at-a-position test: does `pat` occur in `hay` starting anywhere? -/
def listContainsSub [DecidableEq α] (hay pat : List α) : Bool :=
  match hay with
  | [] => pat.isEmpty
  | _ :: t => pat.isPrefixOf hay || listContainsSub t pat

/-- Python `pat in hay` substring test. -/
def containsSub (hay pat : String) : Bool := listContainsSub hay.data pat.data

/-- Whitespace-separated tokens of a character list (auxiliary, with an
accumulator holding the reversed current word). -/
def toksAux : List Char → List Char → List (List Char)
  | [], acc => if acc.isEmpty then [] else [acc.reverse]
  | c :: cs, acc =>
    if isPyWs c then
      if acc.isEmpty then toksAux cs [] else acc.reverse :: toksAux cs []
    else toksAux cs (c :: acc)

/-- Whitespace-separated tokens of a string (Python `str.split()`). -/
def pyTokens (s : String) : List (List Char) := toksAux s.data []

/-- `clean(text)` from the source: NBSP/newline/CR/tab replaced by spaces,
whitespace runs collapsed to a single space, ends trimmed.  Equivalently:
the whitespace-separated tokens joined with single spaces. -/
def clean (s : String) : String :=
  String.mk (List.intercalate [' '] (pyTokens s))

/-! ## Decimal rendering of naturals (Python `str(i)` / f-strings) -/

/-- The character of a decimal digit. -/
def digitCh (d : Nat) : Char := Char.ofNat (48 + d)

/-- Decimal digit list of `n`, most significant first. -/
def natChars (n : Nat) : List Char := ((Nat.digits 10 n).map digitCh).reverse

/-- Decimal rendering of a natural number, as Python's `str`. -/
def natStr (n : Nat) : String := if n = 0 then "0" else String.mk (natChars n)

theorem digitCh_inj_lt (a b : Nat) (ha : a < 10) (hb : b < 10)
    (h : digitCh a = digitCh b) : a = b := by
  interval_cases a <;> interval_cases b <;> simp_all [digitCh]

theorem map_digitCh_inj (l₁ l₂ : List Nat)
    (h₁ : ∀ x ∈ l₁, x < 10) (h₂ : ∀ x ∈ l₂, x < 10)
    (h : l₁.map digitCh = l₂.map digitCh) : l₁ = l₂ := by
  induction l₁ generalizing l₂ with
  | nil => cases l₂ <;> simp_all
  | cons a t ih =>
    cases l₂ with
    | nil => simp_all
    | cons b t₂ =>
      simp only [List.map_cons, List.cons.injEq] at h
      have ha : a < 10 := h₁ a (by simp)
      have hb : b < 10 := h₂ b (by simp)
      have h1 := digitCh_inj_lt a b ha hb h.1
      have h2 := ih t₂ (fun x hx => h₁ x (by simp [hx]))
        (fun x hx => h₂ x (by simp [hx])) h.2
      rw [h1, h2]

theorem natChars_inj {m n : Nat} (h : natChars m = natChars n) : m = n := by
  unfold natChars at h
  have h' : (Nat.digits 10 m).map digitCh = (Nat.digits 10 n).map digitCh :=
    List.reverse_injective h
  have hd : Nat.digits 10 m = Nat.digits 10 n :=
    map_digitCh_inj _ _ (fun x hx => Nat.digits_lt_base (by norm_num) hx)
      (fun x hx => Nat.digits_lt_base (by norm_num) hx) h'
  have := congrArg (Nat.ofDigits 10) hd
  simpa [Nat.ofDigits_digits] using this

theorem natChars_eq_zero_chars {n : Nat} (h : natChars n = ['0']) : n = 0 := by
  have h' : (Nat.digits 10 n).map digitCh = List.map digitCh [0] := by
    have := congrArg List.reverse h
    simp [natChars] at this
    simpa [digitCh] using this
  have hd : Nat.digits 10 n = [0] :=
    map_digitCh_inj _ _ (fun x hx => Nat.digits_lt_base (by norm_num) hx)
      (by intro x hx; simp at hx; omega) h'
  have := congrArg (Nat.ofDigits 10) hd
  simpa [Nat.ofDigits_digits] using this

theorem natStr_ne_empty (n : Nat) : natStr n ≠ "" := by
  unfold natStr
  split
  · decide
  · rename_i h
    intro hc
    have hnil : natChars n = [] := by
      have := congrArg String.data hc
      simpa using this
    have hd : Nat.digits 10 n = [] := by
      have := congrArg List.reverse hnil
      simpa [natChars] using this
    have := congrArg (Nat.ofDigits 10) hd
    simp [Nat.ofDigits_digits] at this
    exact h this

theorem natStr_inj : Function.Injective natStr := by
  intro m n h
  unfold natStr at h
  by_cases hm : m = 0 <;> by_cases hn : n = 0 <;> simp [hm, hn] at h ⊢
  · have hz : natChars n = ['0'] := by
      have := congrArg String.data h
      simpa using this.symm
    exact (natChars_eq_zero_chars hz).symm
  · have hz : natChars m = ['0'] := by
      have := congrArg String.data h
      simpa using this
    exact hm (natChars_eq_zero_chars hz)
  · exact natChars_inj (by have := congrArg String.data h; simpa using this)

/-! ## Title/Body segmenter (`split_section_name_content`) -/

/-- Case-insensitive literal match at the head of a character list; returns the
remainder on success.  The pattern is given lowercase. -/
def matchLitCI : List Char → List Char → Option (List Char)
  | [], l => some l
  | _ :: _, [] => none
  | p :: ps, c :: cs => if lowerCh c = p then matchLitCI ps cs else none

/-- Head match of the prefix regex `(Раздел|Тема|Модуль)\s+\d+\.?\s*[:.]?\s*`
(case-insensitive).  Returns the remainder after the whole matched group. -/
def prefRest (l : List Char) : Option (List Char) :=
  match matchLitCI "раздел".data l <|> matchLitCI "тема".data l <|> matchLitCI "модуль".data l with
  | none => none
  | some r1 =>
    if (r1.takeWhile isPyWs).isEmpty then none
    else
      let r2 := r1.dropWhile isPyWs
      if (r2.takeWhile isDigitCh).isEmpty then none
      else
        let r3 := r2.dropWhile isDigitCh
        let r4 := match r3 with | '.' :: t => t | _ => r3
        let r5 := r4.dropWhile isPyWs
        let r6 := match r5 with
          | c :: t => if c = ':' || c = '.' then t else r5
          | [] => r5
        some (r6.dropWhile isPyWs)

/-- The numbering prefix and the remaining body of a (cleaned) text, as in the
source: `prefix = match.group(0)`, `body = txt[len(prefix):].strip()`, or
`("", txt)` when the prefix regex does not match. -/
def prefBody (txt : String) : String × String :=
  match prefRest txt.data with
  | some rem => (String.mk (txt.data.take (txt.data.length - rem.length)), pyStrip (String.mk rem))
  | none => ("", txt)

/-- Does the sentence-boundary regex `(\.)(\s+)([А-ЯA-Z])` match at the head? -/
def boundaryHead : List Char → Bool
  | '.' :: rest =>
    if (rest.takeWhile isPyWs).isEmpty then false
    else
      match rest.dropWhile isPyWs with
      | c :: _ => isUpperRuLat c
      | [] => false
  | _ => false

/-- Index of the leftmost match of the sentence-boundary regex (`re.search`). -/
def firstBoundaryAux : List Char → Nat → Option Nat
  | [], _ => none
  | l@(_ :: t), i => if boundaryHead l then some i else firstBoundaryAux t (i + 1)

/-- Leftmost sentence-boundary match index in a character list. -/
def firstBoundary (l : List Char) : Option Nat := firstBoundaryAux l 0

/-- Python `str.replace("..", ".")`: left-to-right, non-overlapping. -/
def replaceDoubleDot : List Char → List Char
  | '.' :: '.' :: t => '.' :: replaceDoubleDot t
  | c :: t => c :: replaceDoubleDot t
  | [] => []

/-- `split_section_name_content(raw_text)` from the source: normalize, strip a
known numbering prefix, split at the first sentence boundary if it is past the
8th character, otherwise return the whole text (if short) or a fixed split at
120 characters. -/
def split_section_name_content (raw_text : String) : String × String :=
  let txt := clean raw_text
  if txt = "" then ("", "")
  else
    let pb := prefBody txt
    let body := pb.2
    let splitResult :=
      match firstBoundary body.data with
      | some i =>
        if 8 < i then
          let titlePart := String.mk (body.data.take (i + 1))
          let contentPart := pyStrip (String.mk (body.data.drop (i + 1)))
          some (String.mk (replaceDoubleDot (pyStrip (pb.1 ++ " " ++ titlePart)).data), contentPart)
        else none
      | none => none
    match splitResult with
    | some r => r
    | none =>
      if txt.data.length < 300 then (txt, "")
      else (String.mk (txt.data.take 120) ++ "...", String.mk (txt.data.drop 120))

/-! ## Literature parser: numbering markers and line merging -/

namespace LiteratureParser

/-- `^\s*(\d{1,3})\.\s+` : up to three digits, a dot, then whitespace. -/
def numPat1 (l : List Char) : Option String :=
  let r := l.dropWhile isPyWs
  let ds := r.takeWhile isDigitCh
  if ds.isEmpty || decide (3 < ds.length) then none
  else
    match r.drop ds.length with
    | '.' :: c :: _ => if isPyWs c then some (String.mk ds) else none
    | _ => none

/-- `^\s*\[(\d{1,3})\]\s*` : a bracketed number. -/
def numPat2 (l : List Char) : Option String :=
  match l.dropWhile isPyWs with
  | '[' :: r1 =>
    let ds := r1.takeWhile isDigitCh
    if ds.isEmpty || decide (3 < ds.length) then none
    else
      match r1.drop ds.length with
      | ']' :: _ => some (String.mk ds)
      | _ => none
  | _ => none

/-- `^\s*(\d{1,3})\)\s+` : a number with a closing parenthesis, then whitespace. -/
def numPat3 (l : List Char) : Option String :=
  let r := l.dropWhile isPyWs
  let ds := r.takeWhile isDigitCh
  if ds.isEmpty || decide (3 < ds.length) then none
  else
    match r.drop ds.length with
    | ')' :: c :: _ => if isPyWs c then some (String.mk ds) else none
    | _ => none

/-- `_starts_num`: the first of the three numbering patterns that matches. -/
def starts_num (t : String) : Option String :=
  numPat1 t.data <|> numPat2 t.data <|> numPat3 t.data

/-- The accumulation loop of `_merge`, with the current entry as state. -/
def mergeAux (cur : String) : List String → List String
  | [] => if cur = "" then [] else [cur]
  | ln :: rest =>
    let s := pyStrip ln
    if s = "" then mergeAux cur rest
    else
      match starts_num s with
      | some _ => (if cur = "" then [] else [cur]) ++ mergeAux s rest
      | none => mergeAux (pyRstrip cur ++ " " ++ s) rest

/-- `_merge(lines)`: reconstruct entries wrapped across several source lines. -/
def merge : List String → List String
  | [] => []
  | l0 :: rest => mergeAux (pyStrip l0) rest

end LiteratureParser

/-! ## Data model (pydantic models of the source) -/

/-- `HoursDetail`: the four workload-hour fields, numeric strings, default "0". -/
structure HoursDetail where
  lectures : String := "0"
  practice : String := "0"
  labs : String := "0"
  self_study : String := "0"
deriving Repr, DecidableEq

/-- `SectionDetail`: one syllabus section. -/
structure SectionDetail where
  name : String
  content : String := ""
  hours : HoursDetail := {}
  linked_software : List String := []
deriving Repr, DecidableEq

/-! ## Software-to-section matcher (`SoftwareMatcher`) -/

/-- The separator class of `re.split(r'[\s,;/\\()\-]+', ...)`. -/
def isSepCh (c : Char) : Bool :=
  isPyWs c || c = ',' || c = ';' || c = '/' || c = '\\' || c = '(' || c = ')' || c = '-'

/-- Maximal runs of non-separator characters (generic tokenizer). -/
def runsAux (p : Char → Bool) : List Char → List Char → List (List Char)
  | [], acc => if acc.isEmpty then [] else [acc.reverse]
  | c :: cs, acc =>
    if p c then
      if acc.isEmpty then runsAux p cs [] else acc.reverse :: runsAux p cs []
    else runsAux p cs (c :: acc)

/-- The non-empty tokens of `re.split(r'[\s,;/\\()\-]+', s)`. -/
def sepTokens (s : String) : List String := (runsAux isSepCh s.data []).map String.mk

namespace SoftwareMatcher

/-- `TOOL_KEYWORDS`: the fixed tool-alias table, in source order. -/
def TOOL_KEYWORDS : List (String × List String) := [
  ("python", ["python", "питон", "django", "flask", "numpy", "pandas", "matplotlib",
              "scipy", "jupyter", "notebook"]),
  ("java", ["java", "jdk", "jvm", "spring", "maven", "gradle"]),
  ("c++", ["c++", "cpp", "stl", "шаблон", "template"]),
  ("javascript", ["javascript", "js", "node", "react", "angular", "vue", "typescript"]),
  ("matlab", ["matlab", "матлаб", "simulink", "моделирован"]),
  ("visual studio", ["visual studio", "vs code", "vscode", "отладка", "debug", "ide"]),
  ("mysql", ["mysql", "sql", "база данных", "бд", "запрос", "таблиц"]),
  ("postgresql", ["postgresql", "postgres"]),
  ("git", ["git", "github", "gitlab", "версион", "репозитор"]),
  ("docker", ["docker", "контейнер", "виртуализац"]),
  ("linux", ["linux", "ubuntu", "терминал", "bash", "командн строк"]),
  ("latex", ["latex", "tex", "набор текст", "верстк"]),
  ("microsoft office", ["office", "word", "excel", "powerpoint"])]

/-- Insertion into the keyword set, preserving first-insertion order. -/
def insertKw (acc : List String) (k : String) : List String :=
  if acc.contains k then acc else acc ++ [k]

/-- Insert a whole keyword list (`keywords.update(kws)`). -/
def insertKws (acc : List String) (ks : List String) : List String := ks.foldl insertKw acc

/-- The keyword set built for one software name: alias-table expansion, the
lowercased name itself, and its tokens longer than 2 characters. -/
def swKeywords (sw : String) : List String :=
  let swLower := pyStrip (lowerStr sw)
  let acc := TOOL_KEYWORDS.foldl (fun acc tk =>
    let acc1 := if containsSub swLower tk.1 || containsSub tk.1 swLower
                then insertKws acc tk.2 else acc
    if tk.2.any (fun kw => containsSub swLower kw) then insertKws acc1 tk.2 else acc1) []
  let acc := insertKw acc swLower
  (sepTokens swLower).foldl
    (fun acc part => if 2 < part.length then insertKw acc part else acc) acc

/-- The keyword-occurrence score of one software item against a section text:
each keyword of length at least 3 that occurs in the text adds 2 points. -/
def swScore (kws : List String) (text : String) : Nat :=
  kws.foldl (fun score kw =>
    if kw.length < 3 then score
    else if containsSub text kw then score + 2 else score) 0

/-- The software items whose score against the given section text reaches 2. -/
def linkedFor (software : List String) (text : String) : List String :=
  software.foldl (fun acc sw =>
    if 2 ≤ swScore (swKeywords sw) text then insertKw acc sw else acc) []

/-- The scoring pass applied to one section: `linked_software` is overwritten
with the items matched against `name + " " + content` (lowercased). -/
def scoreMap (software : List String) (sec : SectionDetail) : SectionDetail :=
  { sec with linked_software :=
      linkedFor software (lowerStr (sec.name ++ " " ++ sec.content)) }

/-- The scoring pass over all sections. -/
def scorePhase (software : List String) (sections : List SectionDetail) :
    List SectionDetail :=
  sections.map (scoreMap software)

/-- The software items linked to no section after scoring. -/
def unmatchedOf (software : List String) (scored : List SectionDetail) : List String :=
  software.filter (fun sw => ¬ scored.any (fun sec => sec.linked_software.contains sw))

/-- One step of the hash fallback: append the item to the section at index
`hash(sw) % n` unless it is already there. -/
def fallbackStep (h : String → Nat) (n : Nat) (secs : List SectionDetail) (sw : String) :
    List SectionDetail :=
  match secs.get? (h sw % n) with
  | some s =>
    if s.linked_software.contains sw then secs
    else secs.set (h sw % n) { s with linked_software := s.linked_software ++ [sw] }
  | none => secs

/-- `SoftwareMatcher.match(sections, software)`: the scoring pass followed by
the hash-based fallback assignment of unmatched items.  `h` models Python's
in-process `hash` on strings. -/
def matchSections (h : String → Nat) (sections : List SectionDetail)
    (software : List String) : List SectionDetail :=
  if software.isEmpty || sections.isEmpty then sections
  else
    (unmatchedOf software (scorePhase software sections)).foldl
      (fallbackStep h sections.length) (scorePhase software sections)

/-- The scoring-relevant fields of a section (everything but `linked_software`). -/
def secCore (sec : SectionDetail) : String × String × HoursDetail :=
  (sec.name, sec.content, sec.hours)

/-- Rebuild a scored section from its core fields. -/
def rebuildScored (software : List String) (c : String × String × HoursDetail) :
    SectionDetail :=
  { name := c.1, content := c.2.1, hours := c.2.2,
    linked_software := linkedFor software (lowerStr (c.1 ++ " " ++ c.2.1)) }

end SoftwareMatcher

/-! ## A small regex engine for the source's fixed boolean patterns

The source tests lines against fixed regular expressions with `re.match`
(anchored) or `re.search`, always under `re.I`.  Patterns are embedded with
literals already lowercased; matching lowercases the subject characters.
`mat` returns every possible remainder (full backtracking), so existence of a
match coincides with Python's semantics for these star-free patterns. -/

inductive Pat where
  | lit (s : String)
  | cls (p : Char → Bool)
  | seq (a b : Pat)
  | alt2 (a b : Pat)
  | opt (a : Pat)
  | wsPlus
  | wsStar
  | wPlus
  | dPlus
  | eos

/-- Remainders after consuming a (possibly empty) run of class-`p` characters;
`needOne` demands at least one character (`+` vs `*`). -/
def runDrops (p : Char → Bool) (l : List Char) (needOne : Bool) : List (List Char) :=
  let k := (l.takeWhile p).length
  (List.range (k + 1)).filterMap fun i =>
    if needOne && i = 0 then none else some (l.drop i)

/-- All remainders of matching the pattern at the head of the subject. -/
def Pat.mat : Pat → List Char → List (List Char)
  | .lit s, l =>
    match matchLitCI s.data l with
    | some r => [r]
    | none => []
  | .cls p, l =>
    match l with
    | c :: t => if p c then [t] else []
    | [] => []
  | .seq a b, l => (a.mat l).bind b.mat
  | .alt2 a b, l => a.mat l ++ b.mat l
  | .opt a, l => a.mat l ++ [l]
  | .wsPlus, l => runDrops isPyWs l true
  | .wsStar, l => runDrops isPyWs l false
  | .wPlus, l => runDrops isWordCh l true
  | .dPlus, l => runDrops isDigitCh l true
  | .eos, l => if l.isEmpty then [l] else []

/-- Sequence a list of patterns. -/
def Pat.seqL (l : List Pat) : Pat := l.foldr Pat.seq (Pat.lit "")

/-- Python `re.match(p, t, re.I)` as a Boolean (anchored at the start). -/
def reMatch (p : Pat) (t : String) : Bool := !(p.mat t.data).isEmpty

/-- Search at every start position. -/
def reSearchChars : Pat → List Char → Bool
  | p, [] => !(p.mat []).isEmpty
  | p, c :: t' => !(p.mat (c :: t')).isEmpty || reSearchChars p t'

/-- Python `re.search(p, t, re.I)` as a Boolean. -/
def reSearch (p : Pat) (t : String) : Bool := reSearchChars p t.data

/-! ## Noise classifier and the stop-pattern tables -/

/-- The administrative-noise patterns of `is_noise_text`, in source order. -/
def NOISE_PATS : List Pat := [
  Pat.seqL [Pat.dPlus, Pat.eos],
  Pat.seqL [Pat.lit "стр", Pat.opt (Pat.lit "."), Pat.wsStar, Pat.dPlus],
  Pat.seqL [Pat.lit "-", Pat.wsStar, Pat.dPlus, Pat.wsStar, Pat.lit "-", Pat.eos],
  Pat.seqL [Pat.lit "лист", Pat.wsPlus, Pat.dPlus],
  Pat.seqL [Pat.lit "страница", Pat.wsPlus, Pat.dPlus],
  Pat.lit "утвержд",
  Pat.lit "согласован",
  Pat.lit "протокол",
  Pat.lit "ректор",
  Pat.lit "проректор",
  Pat.lit "декан",
  Pat.seqL [Pat.lit "зав.", Pat.wsStar, Pat.lit "кафедр"],
  Pat.lit "заведующ"]

/-- `is_noise_text(text)`: short lines and administrative boilerplate. -/
def is_noise_text (text : String) : Bool :=
  let t := pyStrip text
  if t.length < 5 then true
  else NOISE_PATS.any (fun p => reMatch p t)

/-- The character class `[её]` under `re.I`. -/
def clsEyo : Pat := Pat.cls (fun c => lowerCh c = 'е' || lowerCh c = 'ё')

/-- `SECTION_STOP_RE`: the section-boundary patterns shared by the description
and goals extractors, in source order. -/
def SECTION_STOP_RE : List Pat := [
  Pat.seqL [Pat.cls (fun c => 50 ≤ c.toNat && c.toNat ≤ 57), Pat.lit ".", Pat.cls isPyWs],
  Pat.seqL [Pat.lit "1.", Pat.cls (fun c => 52 ≤ c.toNat && c.toNat ≤ 57)],
  Pat.seqL [Pat.lit "1.1", Pat.cls (fun c => 48 ≤ c.toNat && c.toNat ≤ 57)],
  Pat.seqL [Pat.lit "место", Pat.wsPlus, Pat.lit "дисциплины"],
  Pat.seqL [Pat.lit "содержание", Pat.wsPlus, Pat.lit "дисциплины"],
  Pat.seqL [Pat.lit "структура", Pat.wsPlus, Pat.lit "дисциплины"],
  Pat.seqL [Pat.lit "объ", clsEyo, Pat.lit "м", Pat.wsPlus, Pat.lit "дисциплины"],
  Pat.lit "компетенци",
  Pat.seqL [Pat.lit "планируемые", Pat.wsPlus, Pat.lit "результат"],
  Pat.seqL [Pat.lit "требования", Pat.wsPlus, Pat.lit "к", Pat.wsPlus, Pat.lit "результат"],
  Pat.seqL [Pat.lit "в", Pat.wsPlus, Pat.lit "результате", Pat.wsPlus,
    Pat.alt2 (Pat.lit "изучения") (Pat.lit "освоения")],
  Pat.seqL [Pat.lit "перечень", Pat.wsPlus, Pat.lit "планируемых"],
  Pat.seqL [Pat.lit "тематический", Pat.wsPlus, Pat.lit "план"],
  Pat.lit "учебно-тематический",
  Pat.seqL [Pat.lit "распределение", Pat.wsPlus, Pat.lit "часов"],
  Pat.seqL [Pat.lit "виды", Pat.wsPlus,
    Pat.opt (Pat.seqL [Pat.lit "учебной", Pat.wsPlus]), Pat.lit "работ"],
  Pat.seqL [Pat.lit "форм", Pat.opt (Pat.lit "ы"), Pat.wsPlus,
    Pat.opt (Pat.seqL [Pat.lit "текущего", Pat.wsPlus]), Pat.lit "контрол"],
  Pat.seqL [Pat.lit "фонд", Pat.wsPlus, Pat.lit "оценочных"]]

/-- The extra stop patterns of the description extractor
(`SECTION_STOP_RE + [r'^Цел[иь]\s', r'^1\.[2-9]']`). -/
def descStops : List Pat :=
  SECTION_STOP_RE ++ [
    Pat.seqL [Pat.lit "цел", Pat.cls (fun c => lowerCh c = 'и' || lowerCh c = 'ь'),
      Pat.cls isPyWs],
    Pat.seqL [Pat.lit "1.", Pat.cls (fun c => 50 ≤ c.toNat && c.toNat ≤ 57)]]

/-- The stop patterns of the goals extractor
(`SECTION_STOP_RE + [r'^Задачи\s+дисциплины', r'^Основные\s+задачи', r'^1\.[4-9]']`). -/
def goalsStops : List Pat :=
  SECTION_STOP_RE ++ [
    Pat.seqL [Pat.lit "задачи", Pat.wsPlus, Pat.lit "дисциплины"],
    Pat.seqL [Pat.lit "основные", Pat.wsPlus, Pat.lit "задачи"],
    Pat.seqL [Pat.lit "1.", Pat.cls (fun c => 52 ≤ c.toNat && c.toNat ≤ 57)]]

/-! ## Description and goals extractors: the paragraph state machines -/

/-- Outcome of one collecting-state step: `halt` breaks the loop, `cont`
continues with the (possibly extended) buffer. -/
inductive CollectStep where
  | halt (buf : List String)
  | cont (buf : List String)
deriving Repr, DecidableEq

/-- The buffer carried by a step outcome. -/
def CollectStep.buffer : CollectStep → List String
  | .halt b => b
  | .cont b => b

/-- Does the string end with a colon (Python `t.endswith(':')`)? -/
def endsColon (t : String) : Bool :=
  match t.data.getLast? with
  | some c => c = ':'
  | none => false

/-- `' '.join(buf)`. -/
def joinSpace (buf : List String) : String := String.intercalate " " buf

/-- The goal-stem keywords of the goals collecting state. -/
def goalStems : List String := ["формирован", "развити", "освоени"]

/-- One collecting-state step of the goals extractor (method 1): stop on a
boundary pattern; skip short trailing-colon lines (< 80 characters) without a
goal stem; otherwise append, stopping once the joined buffer exceeds 2000
characters. -/
def goalsCollectStep (buf : List String) (t : String) : CollectStep :=
  if goalsStops.any (fun p => reMatch p t) then .halt buf
  else if t.length < 80 && endsColon t &&
      !(goalStems.any (fun kw => containsSub (lowerStr t) kw)) then .cont buf
  else
    let buf' := buf ++ [t]
    if 2000 < (joinSpace buf').length then .halt buf' else .cont buf'

/-- One collecting-state step of the description extractor (method 1): stop on
a boundary pattern; skip short trailing-colon lines (< 100 characters)
unconditionally; otherwise append with the 2000-character cap. -/
def descCollectStep (buf : List String) (t : String) : CollectStep :=
  if descStops.any (fun p => reMatch p t) then .halt buf
  else if t.length < 100 && endsColon t then .cont buf
  else
    let buf' := buf ++ [t]
    if 2000 < (joinSpace buf').length then .halt buf' else .cont buf'

/-- The goals start patterns tested with `re.search` (non-anchored ones). -/
def goalsStartSearch : List Pat :=
  let clsIy := Pat.cls (fun c => lowerCh c = 'и' || lowerCh c = 'ь')
  [Pat.seqL [Pat.lit "цел", clsIy, Pat.wsPlus,
      Pat.opt (Pat.seqL [Pat.lit "и", Pat.wsPlus, Pat.lit "задачи", Pat.wsPlus]),
      Pat.opt (Pat.seqL [Pat.lit "освоения", Pat.wsPlus]),
      Pat.alt2 (Pat.lit "дисциплины") (Pat.lit "курса")],
   Pat.seqL [Pat.lit "цел", clsIy, Pat.wsPlus,
      Pat.alt2 (Pat.lit "изучения") (Pat.lit "преподавания")],
   Pat.seqL [Pat.lit "цел", clsIy, Pat.wsPlus, Pat.lit "дисциплины"],
   Pat.seqL [Pat.lit "цел", clsIy, Pat.wsPlus, Pat.lit "курса"],
   Pat.seqL [Pat.lit "целью", Pat.wsPlus,
      Pat.alt2 (Pat.lit "освоения") (Pat.alt2 (Pat.lit "изучения") (Pat.lit "преподавания"))],
   Pat.seqL [Pat.lit "основн", Pat.wPlus, Pat.wsPlus, Pat.lit "цел"]]

/-- The goals start patterns anchored at the string start
(`^1\.3\.?\s` and `^1\.2\.?\s*Цел`). -/
def goalsStartAnchored : List Pat :=
  [Pat.seqL [Pat.lit "1.3", Pat.opt (Pat.lit "."), Pat.cls isPyWs],
   Pat.seqL [Pat.lit "1.2", Pat.opt (Pat.lit "."), Pat.wsStar, Pat.lit "цел"]]

/-- Does any goals start pattern fire on the line? -/
def goalsStartHit (t : String) : Bool :=
  goalsStartSearch.any (fun p => reSearch p t) ||
  goalsStartAnchored.any (fun p => reMatch p t)

/-- `re.split(r'[:.]', t, maxsplit=1)`: the parts before and after the first
colon or period, when one exists. -/
def splitColonDot (t : String) : Option (String × String) :=
  go t.data []
where
  go : List Char → List Char → Option (String × String)
    | [], _ => none
    | c :: rest, acc =>
      if c = ':' || c = '.' then some (String.mk acc.reverse, String.mk rest)
      else go rest (c :: acc)

/-- The capture of `re.search(r'(?:является|–|—|-)\s*(.+)', t, re.I)` at one
position: remainder after the marker, whitespace consumed greedily but giving
one character back when the capture would otherwise be empty. -/
def goalCapAt (l : List Char) : Option (List Char) :=
  let tryAfter : List Char → Option (List Char) := fun rest =>
    let k := (rest.takeWhile isPyWs).length
    let r := rest.drop k
    if !r.isEmpty then some r
    else if 0 < k then some (rest.drop (k - 1))
    else none
  match matchLitCI "является".data l with
  | some rest => tryAfter rest
  | none =>
    match l with
    | c :: rest => if c = '–' || c = '—' || c = '-' then tryAfter rest else none
    | [] => none

/-- Leftmost capture of the goal-start regex. -/
def goalCapSearch : List Char → Option (List Char)
  | [] => none
  | c :: t =>
    match goalCapAt (c :: t) with
    | some g => some g
    | none => goalCapSearch t

/-- The idle-state action of the goals extractor: on a start-pattern hit,
capture trailing content on the same line as the initial buffer. -/
def goalsIdleStep (t : String) : Option (List String) :=
  if goalsStartHit t then
    some (match splitColonDot t with
      | some (_, after) =>
        let remainder := pyStrip after
        if 10 < remainder.length then [remainder] else []
      | none =>
        if 80 < t.length then
          match goalCapSearch t.data with
          | some g => if 10 < g.length then [pyStrip (String.mk g)] else []
          | none => []
        else [])
  else none

/-- The paragraph loop of goals-extraction method 1 (`state` is `none` in
`idle`, `some buf` in `collecting`). -/
def goalsLoop : List String → Option (List String) → List String
  | [], none => []
  | [], some buf => buf
  | p :: rest, none =>
    let t := clean p
    if t = "" || is_noise_text t then goalsLoop rest none
    else
      match goalsIdleStep t with
      | some buf => goalsLoop rest (some buf)
      | none => goalsLoop rest none
  | p :: rest, some buf =>
    let t := clean p
    if t = "" || is_noise_text t then goalsLoop rest (some buf)
    else
      match goalsCollectStep buf t with
      | .halt buf' => buf'
      | .cont buf' => goalsLoop rest (some buf')

/-- Strip the leading `[.:;,\s]+` of the joined buffer
(`re.sub(r'^[.:;,\s]+', '', result)`). -/
def stripLeadPunct (s : String) : String :=
  String.mk (s.data.dropWhile (fun c => c = '.' || c = ':' || c = ';' || c = ',' || isPyWs c))

/-- Method 1 of `extract_goals_docx`: run the paragraph state machine and
normalize the joined buffer. -/
def extract_goals_method1 (paragraphs : List String) : String :=
  stripLeadPunct (pyStrip (joinSpace (goalsLoop paragraphs none)))

/-! ## Literature field decomposition (`_parse_entry`) -/

/-- `LiteratureEntry`: one decomposed bibliography record. -/
structure LiteratureEntry where
  raw : String := ""
  number : Option String := none
  authors : List String := []
  title : String := ""
  year : Option String := none
  publisher : String := ""
  pages : String := ""
  url : String := ""
  doi : String := ""
  isbn : String := ""
  entry_type : String := "unknown"
deriving Repr, DecidableEq

/-- Case-sensitive literal match at the head (for patterns without `re.I`). -/
def matchLitEx : List Char → List Char → Option (List Char)
  | [], l => some l
  | _ :: _, [] => none
  | p :: ps, c :: cs => if c = p then matchLitEx ps cs else none

/-- Leftmost application of a head scanner (`re.search` for a hand-rolled
deterministic pattern). -/
def searchFirst (f : List Char → Option (List Char)) : List Char → Option (List Char)
  | [] => f []
  | c :: t =>
    match f (c :: t) with
    | some x => some x
    | none => searchFirst f t

namespace LiteratureParser

/-- Strip a leading numbering marker, returning the captured number and the
remainder after the whole match (`m.end()`), trying the three patterns in
source order. -/
def numStrip (l : List Char) : Option (String × List Char) :=
  let ws := l.dropWhile isPyWs
  let ds := ws.takeWhile isDigitCh
  let p1 : Option (String × List Char) :=
    if ds.isEmpty || decide (3 < ds.length) then none
    else
      match ws.drop ds.length with
      | '.' :: r3 =>
        let ws2 := r3.takeWhile isPyWs
        if ws2.isEmpty then none else some (String.mk ds, r3.drop ws2.length)
      | _ => none
  let p2 : Option (String × List Char) :=
    match ws with
    | '[' :: r1 =>
      let ds2 := r1.takeWhile isDigitCh
      if ds2.isEmpty || decide (3 < ds2.length) then none
      else
        match r1.drop ds2.length with
        | ']' :: r2 => some (String.mk ds2, r2.dropWhile isPyWs)
        | _ => none
    | _ => none
  let p3 : Option (String × List Char) :=
    if ds.isEmpty || decide (3 < ds.length) then none
    else
      match ws.drop ds.length with
      | ')' :: r3 =>
        let ws2 := r3.takeWhile isPyWs
        if ws2.isEmpty then none else some (String.mk ds, r3.drop ws2.length)
      | _ => none
  p1 <|> p2 <|> p3

/-- Head match of `https?://[^\s,;)]+` (case-sensitive), returning the
matched characters. -/
def urlAt (l : List Char) : Option (List Char) :=
  let cont : List Char → List Char → Option (List Char) := fun pre r =>
    let body := r.takeWhile (fun c => !(isPyWs c || c = ',' || c = ';' || c = ')'))
    if body.isEmpty then none else some (pre ++ body)
  match matchLitEx "https://".data l with
  | some r => cont "https://".data r
  | none =>
    match matchLitEx "http://".data l with
    | some r => cont "http://".data r
    | none => none

/-- Head match of `(?:doi:\s*)(10\.\d{4,}/[^\s,;]+)` (case-insensitive),
returning the captured group. -/
def doiAt (l : List Char) : Option (List Char) :=
  match matchLitCI "doi:".data l with
  | none => none
  | some r =>
    let r1 := r.dropWhile isPyWs
    match matchLitEx "10.".data r1 with
    | none => none
    | some r2 =>
      let ds := r2.takeWhile isDigitCh
      if decide (ds.length < 4) then none
      else
        match r2.drop ds.length with
        | '/' :: r3 =>
          let tail := r3.takeWhile (fun c => !(isPyWs c || c = ',' || c = ';'))
          if tail.isEmpty then none
          else some ("10.".data ++ ds ++ '/' :: tail)
        | _ => none

/-- The `[\s:-]` class before an ISBN capture. -/
def isbnPre (c : Char) : Bool := isPyWs c || c = ':' || c = '-'

/-- The `[\d\-Xx ]` ISBN capture class. -/
def isbnCap (c : Char) : Bool := isDigitCh c || c = '-' || c = 'X' || c = 'x' || c = ' '

/-- Greedy backtracking of `[\s:-]*` before the `[\d\-Xx ]+` capture: try the
largest prefix-run consumption first. -/
def isbnDown (r : List Char) : Nat → Option (List Char)
  | 0 =>
    match r with
    | c :: _ => if isbnCap c then some (r.takeWhile isbnCap) else none
    | [] => none
  | L + 1 =>
    match r.drop (L + 1) with
    | c :: _ =>
      if isbnCap c then some ((r.drop (L + 1)).takeWhile isbnCap) else isbnDown r L
    | [] => isbnDown r L

/-- Head match of `ISBN[\s:-]*([\d\-Xx ]+)` (case-sensitive), returning the
captured group. -/
def isbnAt (l : List Char) : Option (List Char) :=
  match matchLitEx "ISBN".data l with
  | none => none
  | some r => isbnDown r ((r.takeWhile isbnPre).length)

/-- Head match of the year pattern `(?:19[5-9]|20[0-3])\d`. -/
def yearAt (l : List Char) : Option (List Char) :=
  match l with
  | a :: b :: c :: d :: _ =>
    if a = '1' && b = '9' && (53 ≤ c.toNat && c.toNat ≤ 57) && isDigitCh d then some [a, b, c, d]
    else if a = '2' && b = '0' && (48 ≤ c.toNat && c.toNat ≤ 51) && isDigitCh d then some [a, b, c, d]
    else none
  | _ => none

/-- Head match of `[–—-]\s*(\d+)\s*[сcСC]\b\.?`, returning the digit group. -/
def pagesAt (l : List Char) : Option (List Char) :=
  match l with
  | c :: rest =>
    if c = '–' || c = '—' || c = '-' then
      let r1 := rest.dropWhile isPyWs
      let ds := r1.takeWhile isDigitCh
      if ds.isEmpty then none
      else
        let r3 := (r1.drop ds.length).dropWhile isPyWs
        match r3 with
        | s :: r4 =>
          if s = 'с' || s = 'c' || s = 'С' || s = 'C' then
            match r4 with
            | [] => some ds
            | x :: _ => if isWordCh x then none else some ds
          else none
        | [] => none
    else none
  | [] => none

/-- The e-library provider pattern
`ЭБС|электронн\w+.библиотечн|Znanium|Лань|Юрайт|IPRbooks` (case-insensitive). -/
def ebsPat : Pat :=
  Pat.alt2 (Pat.lit "эбс") (Pat.alt2
    (Pat.seqL [Pat.lit "электронн", Pat.wPlus, Pat.cls (fun c => c ≠ '\n'),
      Pat.lit "библиотечн"])
    (Pat.alt2 (Pat.lit "znanium")
      (Pat.alt2 (Pat.lit "лань") (Pat.alt2 (Pat.lit "юрайт") (Pat.lit "iprbooks")))))

/-- The book-word pattern `учебник|пособие|монограф`. -/
def webNegPat : Pat :=
  Pat.alt2 (Pat.lit "учебник") (Pat.alt2 (Pat.lit "пособие") (Pat.lit "монограф"))

/-- The standards pattern `ГОСТ|стандарт|СНиП|СП\s+\d` (case-insensitive). -/
def stdPat : Pat :=
  Pat.alt2 (Pat.lit "гост") (Pat.alt2 (Pat.lit "стандарт")
    (Pat.alt2 (Pat.lit "снип") (Pat.seqL [Pat.lit "сп", Pat.wsPlus, Pat.cls isDigitCh])))

/-- The uppercase author-name class `[А-ЯЁA-Z]`. -/
def upAu (c : Char) : Bool := isUpperRu c || c = 'Ё' || isUpperLat c

/-- The lowercase author-name class `[а-яёa-z]`. -/
def loAu (c : Char) : Bool := isLowerRu c || c = 'ё' || isLowerLat c

/-- Head match of author form A
`[А-ЯЁA-Z][а-яёa-z]+,?\s+[А-ЯЁA-Z]\.(?:\s*[А-ЯЁA-Z]\.)?`, returning the
remainder after the match. -/
def authorAAt (l : List Char) : Option (List Char) :=
  match l with
  | c :: rest =>
    if upAu c then
      let ll := rest.takeWhile loAu
      if ll.isEmpty then none
      else
        let r1 := rest.drop ll.length
        let r2 := match r1 with
          | ',' :: t => t
          | _ => r1
        let ws := r2.takeWhile isPyWs
        if ws.isEmpty then none
        else
          match r2.drop ws.length with
          | u :: '.' :: r4 =>
            if upAu u then
              let r5 := r4.dropWhile isPyWs
              match r5 with
              | u2 :: '.' :: r6 => if upAu u2 then some r6 else some r4
              | _ => some r4
            else none
          | _ => none
    else none
  | [] => none

/-- Head match of author form B
`[А-ЯЁA-Z]\.(?:\s*[А-ЯЁA-Z]\.)?\s*[А-ЯЁA-Z][а-яёa-z]+`, returning the
remainder; the optional second-initial group backtracks. -/
def authorBAt (l : List Char) : Option (List Char) :=
  let surname : List Char → Option (List Char) := fun r =>
    let r1 := r.dropWhile isPyWs
    match r1 with
    | u :: rest =>
      if upAu u then
        let ll := rest.takeWhile loAu
        if ll.isEmpty then none else some (rest.drop ll.length)
      else none
    | [] => none
  match l with
  | u :: '.' :: r2 =>
    if upAu u then
      let withOpt : Option (List Char) :=
        match r2.dropWhile isPyWs with
        | u2 :: '.' :: r4 => if upAu u2 then surname r4 else none
        | _ => none
      match withOpt with
      | some res => some res
      | none => surname r2
    else none
  | _ => none

/-- `re.findall` for a head scanner, with fuel for termination; the scanners
above never match the empty string, so the fuel never runs out in practice. -/
def findAllAux (f : List Char → Option (List Char)) : Nat → List Char → List (List Char)
  | 0, _ => []
  | _, [] => []
  | fuel + 1, c :: t =>
    match f (c :: t) with
    | some rem => ((c :: t).take ((c :: t).length - rem.length)) :: findAllAux f fuel rem
    | none => findAllAux f fuel t

/-- All non-overlapping matches of a head scanner, left to right. -/
def findAll (f : List Char → Option (List Char)) (l : List Char) : List (List Char) :=
  findAllAux f (l.length + 1) l

/-- Order-preserving dedup of the cleaned author strings. -/
def dedupClean (l : List String) : List String :=
  l.foldl (fun acc a =>
    let n := clean a
    if acc.contains n then acc else acc ++ [n]) []

/-- Replace the first occurrence of `pat` (nonempty) in `l` with nothing. -/
def replaceFirstL (pat : List Char) : List Char → List Char
  | [] => []
  | c :: t =>
    if pat.isPrefixOf (c :: t) && !pat.isEmpty then (c :: t).drop pat.length
    else c :: replaceFirstL pat t

/-- Python `s.replace(pat, '', 1)`. -/
def replaceFirst (s pat : String) : String := String.mk (replaceFirstL pat.data s.data)

/-- Leftmost occurrence split on a literal separator: `(before, after)`. -/
def splitFirstSubAux (pat : List Char) : List Char → List Char → Option (List Char × List Char)
  | acc, [] => none
  | acc, c :: t =>
    if pat.isPrefixOf (c :: t) && !pat.isEmpty then
      some (acc.reverse, (c :: t).drop pat.length)
    else splitFirstSubAux pat (c :: acc) t

/-- Head match of the dash separator `\s+[–—]\s+`: the consumed length. -/
def dashAt (l : List Char) : Option Nat :=
  let k := (l.takeWhile isPyWs).length
  if k = 0 then none
  else
    match l.drop k with
    | c :: rest =>
      if c = '–' || c = '—' then
        let k2 := (rest.takeWhile isPyWs).length
        if k2 = 0 then none else some (k + 1 + k2)
      else none
    | [] => none

/-- `re.split(r'\s+[–—]\s+', s, maxsplit=1)`: the two parts, when the
separator occurs. -/
def dashSplitAux : List Char → List Char → Option (List Char × List Char)
  | _, [] => none
  | acc, c :: t =>
    match dashAt (c :: t) with
    | some sep => some (acc.reverse, (c :: t).drop sep)
    | none => dashSplitAux (c :: acc) t

/-- `_parse_entry(raw)`: decompose one merged bibliography line into typed
fields, as in the source. -/
def parse_entry (raw : String) : LiteratureEntry :=
  let stripped := numStrip raw.data
  let number := (stripped.map Prod.fst)
  let text := pyStrip (String.mk (match stripped with
    | some (_, rest) => rest
    | none => raw.data))
  let url := match searchFirst urlAt text.data with
    | some u => pyRstripChars ['.', ',', ':', ';'] (String.mk u)
    | none => ""
  let doi := match searchFirst doiAt text.data with
    | some d => pyRstripChars ['.', ',', ':', ';'] (String.mk d)
    | none => ""
  let isbn := match searchFirst isbnAt text.data with
    | some i => pyStrip (String.mk i)
    | none => ""
  let year := (searchFirst yearAt text.data).map String.mk
  let pages := match searchFirst pagesAt text.data with
    | some ds => String.mk ds ++ " с."
    | none => ""
  let tl := lowerStr text
  let entry_type :=
    if reSearch ebsPat text then "ebs"
    else if url ≠ "" && !(reSearch webNegPat tl) then "web"
    else if containsSub text "//" then "article"
    else if reSearch stdPat text then "standard"
    else "book"
  let authorsA := findAll authorAAt text.data
  let authorsRaw := if authorsA.isEmpty then findAll authorBAt text.data else authorsA
  let authors := (dedupClean (authorsRaw.map String.mk)).take 10
  let remaining0 := (authors.take 2).foldl replaceFirst text
  let remaining := pyStripChars [' ', ',', '.', ':', ';', '/'] remaining0
  let tp : String × String :=
    if containsSub remaining "//" then
      match splitFirstSubAux "//".data [] remaining.data with
      | some (before, after) =>
        let tc := pyStripChars [' ', '.', ',', ';', ':', '/'] (String.mk before)
        (if 5 < tc.length then tc else "", clean (String.mk after))
      | none => ("", "")
    else
      match dashSplitAux [] remaining.data with
      | some (before, after) =>
        (if 5 < before.length then pyStripChars [' ', '.', ',', ';', ':'] (String.mk before)
         else "", clean (String.mk after))
      | none =>
        if remaining ≠ "" then (String.mk (remaining.data.take 200), "") else ("", "")
  { raw := raw, number := number, authors := authors, title := tp.1, year := year,
    publisher := tp.2, pages := pages, url := url, doi := doi, isbn := isbn,
    entry_type := entry_type }

end LiteratureParser

/-- The numeric value of a decimal digit string. -/
def digitsVal (l : List Char) : Nat := l.foldl (fun n c => 10 * n + (c.toNat - 48)) 0

/-! ## Syllabus table extractor (sections from `parse_docx_structural`) -/

/-- A table cell: its paragraphs' texts. -/
abbrev Cell := List String

/-- A table row: its cells. -/
abbrev Row := List Cell

/-- A table: its rows. -/
abbrev Table := List Row

/-- python-docx `cell.text`: the paragraph texts joined with newlines. -/
def cellText (cell : Cell) : String := String.intercalate "\n" cell

/-- `extract_cell_text(cell)`: the stripped, non-empty paragraph texts joined
with single spaces. -/
def extract_cell_text (cell : Cell) : String :=
  String.intercalate " " ((cell.map pyStrip).filter (· ≠ ""))

/-- Python `s.isdigit()` (restricted to ASCII decimal digits). -/
def isDigitStr (s : String) : Bool := !s.data.isEmpty && s.data.all isDigitCh

/-- `is_header_row(cells_text)`: at least 2 of the fixed header keywords occur
in the concatenated lowercased row text. -/
def is_header_row (cells_text : List String) : Bool :=
  let combined := lowerStr (String.intercalate " " cells_text)
  let header_words := ["наименование", "тема", "раздел", "содержание", "лекци", "практич",
    "лаборатор", "самост", "всего", "№ п/п", "номер", "часы", "занятия"]
  2 ≤ (header_words.filter (fun w => containsSub combined w)).length

/-- `is_skip_row(cells_text)`: very short rows or administrative aggregation
rows. -/
def is_skip_row (cells_text : List String) : Bool :=
  let combined := pyStrip (lowerStr (String.intercalate " " cells_text))
  if combined = "" || combined.length < 3 then true
  else
    ["итого", "всего", "зачет", "экзамен", "аттестац", "промежуточ",
     "контрольн", "курсов", "итого по", "семестр"].any
      (fun w => containsSub combined w)

/-- Does this cell look like an hour value (`txt.isdigit() and len(txt) <= 3`)? -/
def isHourCell (cell : Cell) : Bool :=
  let txt := pyStrip (cellText cell)
  isDigitStr txt && txt.length ≤ 3

/-- Scan one row's cells (from column index `i`), appending qualifying column
indices not yet collected. -/
def collectCells (acc : List Nat) (i : Nat) : List Cell → List Nat
  | [] => acc
  | cell :: rest =>
    let acc' := if isHourCell cell && !acc.contains i then acc ++ [i] else acc
    collectCells acc' (i + 1) rest

/-- Scan one row for hour columns. -/
def collectRow (acc : List Nat) (row : Row) : List Nat := collectCells acc 0 row

/-- The hour-column indices collected from data rows 1..7, in discovery order. -/
def hourColsBase (table : Table) : List Nat :=
  ((table.drop 1).take 7).foldl collectRow []

/-- `hours_indices` after the in-place sort. -/
def hourCols (table : Table) : List Nat :=
  List.insertionSort (· ≤ ·) (hourColsBase table)

/-- The cleaned cell texts of a row. -/
def cellsTextOf (row : Row) : List String :=
  row.map (fun c => clean (extract_cell_text c))

/-- The hour values read positionally from the hour columns: cells beyond the
row are dropped, non-numeric cells become "0". -/
def collectVals (cells_text : List String) : List Nat → List String
  | [] => []
  | idx :: rest =>
    if idx < cells_text.length then
      (let v := pyStrip (cells_text.getD idx "")
       if isDigitStr v then v else "0") :: collectVals cells_text rest
    else collectVals cells_text rest

/-- Positional assignment of the collected hour values to the four fields. -/
def assignHours (vals : List String) : HoursDetail :=
  let h0 : HoursDetail := {}
  let h1 := if 1 ≤ vals.length then { h0 with lectures := vals.getD 0 "0" } else h0
  let h2 := if 2 ≤ vals.length then { h1 with practice := vals.getD 1 "0" } else h1
  if vals.length = 3 then { h2 with self_study := vals.getD 2 "0" }
  else if 4 ≤ vals.length then
    { h2 with labs := vals.getD 2 "0", self_study := vals.getD 3 "0" }
  else h2

/-- The name/content layout heuristics of one table row, including the
corrective merge of a short name with lowercase-starting content. -/
def rowNameContent (hcols : List Nat) (row : Row) : String × String :=
  let cells_text := cellsTextOf row
  let c0 := cells_text.headD ""
  let nc : String × String :=
    if 2 ≤ hcols.headD 0 ∧ 1 < row.length then
      let c1 := cells_text.getD 1 ""
      if c1 ≠ "" then
        if c0.length < 6 ∧ 5 < c1.length then
          let p := split_section_name_content c1
          ("Тема " ++ c0 ++ " " ++ p.1, p.2)
        else (c0, c1)
      else split_section_name_content c0
    else split_section_name_content c0
  if (pyTokens nc.1).length < 3 ∧ nc.1.length < 30 ∧ nc.2 ≠ "" ∧
      isLowerPy (nc.2.data.headD 'a') then
    (nc.1 ++ " " ++ nc.2, "")
  else nc

/-- Process one table row into a section, applying the skip/header/noise
filters, the name/content layout heuristics, the corrective merge, and the
hour assignment. -/
def rowSection (hcols : List Nat) (row : Row) : Option SectionDetail :=
  if row.isEmpty then none
  else if is_skip_row (cellsTextOf row) then none
  else if is_header_row (cellsTextOf row) then none
  else if ((cellsTextOf row).headD "").length < 2 then none
  else if (rowNameContent hcols row).1 = "" ∨ (rowNameContent hcols row).1.length < 3 then none
  else
    some { name := (rowNameContent hcols row).1, content := (rowNameContent hcols row).2,
           hours := assignHours (collectVals (cellsTextOf row) hcols),
           linked_software := [] }

/-- The sections produced from one table by `parse_docx_structural`: tables
with fewer than 2 rows or fewer than 2 hour columns yield nothing. -/
def tableSections (table : Table) : List SectionDetail :=
  if table.length < 2 then []
  else if (hourCols table).length < 2 then []
  else table.filterMap (rowSection (hourCols table))

/-! ## Discipline record, decode-failure skeletons, and the graph builder -/

/-- `LiteratureList`: main and additional bibliography. -/
structure LiteratureList where
  main : List LiteratureEntry := []
  additional : List LiteratureEntry := []
deriving Repr, DecidableEq

/-- `DisciplineData`: one parsed document, with the pydantic defaults. -/
structure DisciplineData where
  name : String := "Без названия"
  direction : String := ""
  edu_program : String := ""
  edu_level : String := ""
  period : String := "-"
  volume : String := "-"
  volume_details : String := ""
  goals : String := ""
  description : String := ""
  category : String := "technical"
  sections : List SectionDetail := []
  outcomes : List String := []
  software : List String := []
  literature : LiteratureList := {}
deriving Repr, DecidableEq

/-- A decode failure of the underlying document library (corrupt file). -/
inductive DecodeError where
  | corrupt
deriving Repr, DecidableEq

/-- The decode stage of `parse_pdf_regex`: `pypdf.PdfReader` and page
extraction run inside `try/except Exception: return data`, so a decode
failure yields the fresh default `DisciplineData`; `body` abstracts the rest
of the function, which runs only on successfully extracted text. -/
def parse_pdf_regex (body : String → DisciplineData)
    (input : Except DecodeError String) : DisciplineData :=
  match input with
  | .error _ => {}
  | .ok text => body text

/-- The decode stage of `parse_docx_structural`: `docx.Document(file_path)`
is called with no surrounding `try`, so a decode failure propagates to the
caller (the `analyze` endpoint turns it into an error response); `body`
abstracts the rest of the function over the decoded document. -/
def parse_docx_structural (body : α → DisciplineData)
    (input : Except DecodeError α) : Except DecodeError DisciplineData :=
  match input with
  | .error e => .error e
  | .ok doc => .ok (body doc)

/-- A concrete syllabus table used as a test vector. -/
def demoTable : Table :=
  [[["Наименование раздела"], ["Лекции"], ["Часы"]],
   [["Тема 1. Основы"], ["12"], ["8"]],
   [["Итого"], ["20"], ["16"]]]

/-- A table with no numeric columns, used as a test vector. -/
def demoTableNoHours : Table := [[["a"], ["b"]], [["c"], ["d"]]]

/-- The section extracted from the demo table. -/
def demoSection : SectionDetail :=
  { name := "Тема 1. Основы", content := "",
    hours := { lectures := "12", practice := "8", labs := "0", self_study := "0" },
    linked_software := [] }

/-- `GraphNode`: id, display label, node type (the auxiliary `data` payload
dict is not modelled; claim-relevant identity lives in `id`). -/
structure GraphNode where
  id : String
  label : String
  type : String
deriving Repr, DecidableEq

/-- `GraphEdge`: source and target node ids with an optional label. -/
structure GraphEdge where
  source : String
  target : String
  label : Option String := none
deriving Repr, DecidableEq

/-- Truncation `s[:k]` of the node labels. -/
def takeStr (k : Nat) (s : String) : String := String.mk (s.data.take k)

/-- `f"{prefix}root" if prefix else "root"`. -/
def rootId (pre : String) : String := if pre = "" then "root" else pre ++ "root"

/-- `f"{prefix}sec-{i}"`. -/
def secId (pre : String) (i : Nat) : String := pre ++ ("sec-" ++ natStr i)

/-- `f"{prefix}sw-{idx}"`. -/
def swId (pre : String) (i : Nat) : String := pre ++ ("sw-" ++ natStr i)

/-- `f"{prefix}lm-{i}"`. -/
def lmId (pre : String) (i : Nat) : String := pre ++ ("lm-" ++ natStr i)

/-- `f"{prefix}la-{i}"`. -/
def laId (pre : String) (i : Nat) : String := pre ++ ("la-" ++ natStr i)

/-- `lit.title or lit.raw` (empty string falsy). -/
def litLabel (lit : LiteratureEntry) : String :=
  if lit.title ≠ "" then lit.title else lit.raw

/-- The section nodes, indexed from `i`. -/
def secNodesFrom (pre : String) (i : Nat) : List SectionDetail → List GraphNode
  | [] => []
  | sec :: rest =>
    ⟨secId pre i, takeStr 50 sec.name, "section"⟩ :: secNodesFrom pre (i + 1) rest

/-- The root-to-section edges, indexed from `i`. -/
def secEdgesFrom (pre : String) (i : Nat) : List SectionDetail → List GraphEdge
  | [] => []
  | _ :: rest => ⟨rootId pre, secId pre i, none⟩ :: secEdgesFrom pre (i + 1) rest

/-- The mutable state of the software-node phases: nodes and edges built so
far and the `sw_added` id set (insertion order). -/
structure GB where
  nodes : List GraphNode
  edges : List GraphEdge
  added : List String
deriving Repr, DecidableEq

/-- Add the software node for column `idx` unless its id is already present. -/
def ensureSw (pre : String) (st : GB) (idx : Nat) (sw : String) : GB :=
  if st.added.contains (swId pre idx) then st
  else { st with nodes := st.nodes ++ [⟨swId pre idx, takeStr 30 sw, "software"⟩],
                 added := st.added ++ [swId pre idx] }

/-- One linked-software item of section `i`: skip names outside the record's
software list, otherwise ensure the node and add the "использует" edge. -/
def stepB (pre : String) (software : List String) (i : Nat) (st : GB) (sw : String) : GB :=
  if sw ∈ software then
    let st' := ensureSw pre st (software.indexOf sw) sw
    { st' with edges :=
        st'.edges ++ [⟨secId pre i, swId pre (software.indexOf sw), some "использует"⟩] }
  else st

/-- Fold over one section's linked software. -/
def linkedFold (pre : String) (software : List String) (i : Nat) (st : GB) :
    List String → GB
  | [] => st
  | sw :: rest => linkedFold pre software i (stepB pre software i st sw) rest

/-- The section-to-software phase over the sections, indexed from `i`. -/
def phaseBFrom (pre : String) (software : List String) (i : Nat) (st : GB) :
    List SectionDetail → GB
  | [] => st
  | sec :: rest =>
    phaseBFrom pre software (i + 1) (linkedFold pre software i st sec.linked_software) rest

/-- The remaining software items: nodes plus root edges for ids not yet added,
indexed from `idx`. -/
def phaseCFrom (pre : String) (idx : Nat) (st : GB) : List String → GB
  | [] => st
  | sw :: rest =>
    phaseCFrom pre (idx + 1)
      (if st.added.contains (swId pre idx) then st
       else { nodes := st.nodes ++ [⟨swId pre idx, takeStr 30 sw, "software"⟩],
              edges := st.edges ++ [⟨rootId pre, swId pre idx, none⟩],
              added := st.added ++ [swId pre idx] }) rest

/-- The literature nodes of one category, indexed from `i`. -/
def litNodesFrom (mkId : Nat → String) (ty : String) (i : Nat) :
    List LiteratureEntry → List GraphNode
  | [] => []
  | lit :: rest => ⟨mkId i, takeStr 45 (litLabel lit), ty⟩ :: litNodesFrom mkId ty (i + 1) rest

/-- The root-to-literature edges of one category (label on the first only),
indexed from `i`. -/
def litEdgesFrom (pre : String) (mkId : Nat → String) (lab : String) (i : Nat) :
    List LiteratureEntry → List GraphEdge
  | [] => []
  | _ :: rest =>
    ⟨rootId pre, mkId i, if i = 0 then some lab else none⟩ ::
      litEdgesFrom pre mkId lab (i + 1) rest

/-- `build_graph(data, prefix)`: the single-document graph projection. -/
def build_graph (data : DisciplineData) (pre : String) :
    List GraphNode × List GraphEdge :=
  let rootNode : GraphNode := ⟨rootId pre, takeStr 60 data.name, "discipline"⟩
  let bc := phaseCFrom pre 0
    (phaseBFrom pre data.software 0 ⟨[], [], []⟩ data.sections) data.software
  let nodes := rootNode :: secNodesFrom pre 0 data.sections ++ bc.nodes ++
    litNodesFrom (lmId pre) "lit_main" 0 (data.literature.main.take 6) ++
    litNodesFrom (laId pre) "lit_add" 0 (data.literature.additional.take 5)
  let edges := secEdgesFrom pre 0 data.sections ++ bc.edges ++
    litEdgesFrom pre (lmId pre) "осн." 0 (data.literature.main.take 6) ++
    litEdgesFrom pre (laId pre) "доп." 0 (data.literature.additional.take 5)
  (nodes, edges)

/-! ## Helper lemmas on the string utilities -/

theorem data_append (s t : String) : (s ++ t).data = s.data ++ t.data := rfl

theorem toksAux_append_space (l : List Char) :
    ∀ acc, toksAux (l ++ [' ']) acc = toksAux l acc := by
  induction l with
  | nil =>
    intro acc
    by_cases h : acc.isEmpty <;> simp [toksAux, h, isPyWs]
  | cons c t ih =>
    intro acc
    by_cases hw : isPyWs c <;> by_cases ha : acc.isEmpty <;>
      simp [toksAux, hw, ha, ih]

theorem clean_append_space (s : String) : clean (s ++ " ") = clean s := by
  unfold clean pyTokens
  rw [data_append]
  show String.mk (List.intercalate [' '] (toksAux (s.data ++ [' ']) [])) = _
  rw [toksAux_append_space]

theorem starts_num_empty : LiteratureParser.starts_num "" = none := by decide

/-- C2: in the literature segmentation merge step, a line starting with a
recognized numbering marker (`N.`, `[N]`, `N)`) begins a new entry, a line
without such a marker is space-joined onto the current entry, and the two
concrete lines of the claim merge into exactly one entry containing both. -/
theorem C2_merge_theorem :
    (∀ cur ln rest, (LiteratureParser.starts_num (pyStrip ln)).isSome →
      LiteratureParser.mergeAux cur (ln :: rest) =
        (if cur = "" then [] else [cur]) ++ LiteratureParser.mergeAux (pyStrip ln) rest) ∧
    (∀ cur ln rest, pyStrip ln ≠ "" → LiteratureParser.starts_num (pyStrip ln) = none →
      LiteratureParser.mergeAux cur (ln :: rest) =
        LiteratureParser.mergeAux (pyRstrip cur ++ " " ++ pyStrip ln) rest) ∧
    (LiteratureParser.merge
        ["1. Иванов И.И. Курс лекций. – М., 2019.", "продолжение текста."] =
      ["1. Иванов И.И. Курс лекций. – М., 2019. продолжение текста."] ∧
     containsSub "1. Иванов И.И. Курс лекций. – М., 2019. продолжение текста."
        "1. Иванов И.И. Курс лекций. – М., 2019." = true ∧
     containsSub "1. Иванов И.И. Курс лекций. – М., 2019. продолжение текста."
        "продолжение текста." = true) := by
  refine ⟨?_, ?_, by decide, by decide, by decide⟩
  · intro cur ln rest hmark
    have hs : pyStrip ln ≠ "" := by
      intro h
      rw [h, starts_num_empty] at hmark
      exact Bool.noConfusion hmark
    obtain ⟨d, hd⟩ := Option.isSome_iff_exists.mp hmark
    simp only [LiteratureParser.mergeAux, hs, if_false, hd]
  · intro cur ln rest hs hnum
    simp only [LiteratureParser.mergeAux, hs, if_false, hnum]

/-- C2 witness: the marker-line and continuation-line cases of the merge step,
instantiated at concrete inputs. -/
theorem C2_merge_witness :
    LiteratureParser.mergeAux "x" ["2. abc"] = ["x", "2. abc"] ∧
    LiteratureParser.mergeAux "x" ["abc def"] = ["x abc def"] := by
  constructor
  · have h := C2_merge_theorem.1 "x" "2. abc" [] (by decide)
    rw [h]; decide
  · have h := C2_merge_theorem.2.1 "x" "abc def" [] (by decide) (by decide)
    rw [h]; decide

/-- C4 counterexample: the prefix-stripped text contains a sentence boundary
(period, whitespace, uppercase) at index 17, past the 8th character, and it is
the first such boundary past the 8th character, yet the segmenter does not
split there (the leftmost boundary, at index 2, is not past the 8th character,
so the source falls through to the short-text branch). -/
theorem C4_split_counterexample :
    boundaryHead ("Ab. Cd efghij klm. Nopqrs".data.drop 17) = true ∧
    8 < 17 ∧
    (∀ j ∈ List.range 17, 8 < j →
      boundaryHead ("Ab. Cd efghij klm. Nopqrs".data.drop j) = false) ∧
    split_section_name_content "Ab. Cd efghij klm. Nopqrs" ≠
      ("Ab. Cd efghij klm.", "Nopqrs") := by
  refine ⟨by decide, by norm_num, by decide, by decide⟩

/-- C4 amended: the segmenter splits at the leftmost sentence boundary only
when that leftmost occurrence is past the 8th character (title = prefix plus
text up to and including the period, whitespace-trimmed with double periods
collapsed; body = trimmed remainder); when the leftmost boundary is absent or
not past the 8th character and the normalized text has 300 or more characters,
the title is the first 120 characters plus an ellipsis and the body the rest. -/
theorem C4_split_theorem (raw : String) :
    (∀ i, firstBoundary (prefBody (clean raw)).2.data = some i → 8 < i →
      split_section_name_content raw =
        (String.mk (replaceDoubleDot (pyStrip ((prefBody (clean raw)).1 ++ " " ++
            String.mk ((prefBody (clean raw)).2.data.take (i + 1)))).data),
         pyStrip (String.mk ((prefBody (clean raw)).2.data.drop (i + 1))))) ∧
    ((∀ i, firstBoundary (prefBody (clean raw)).2.data = some i → i ≤ 8) →
      300 ≤ (clean raw).data.length →
      split_section_name_content raw =
        (String.mk ((clean raw).data.take 120) ++ "...",
         String.mk ((clean raw).data.drop 120))) := by
  constructor
  · intro i hfb hi
    by_cases hempty : clean raw = ""
    · rw [hempty] at hfb
      have hnone : firstBoundary (prefBody "").2.data = none := by decide
      rw [hnone] at hfb
      exact Option.noConfusion hfb
    · unfold split_section_name_content
      simp only [hempty, if_false, hfb]
      rw [if_pos hi]
  · intro hnb hlen
    have hempty : ¬ clean raw = "" := by
      intro h
      rw [h] at hlen
      simp at hlen
    unfold split_section_name_content
    simp only [hempty, if_false]
    have hfall :
        (match firstBoundary (prefBody (clean raw)).2.data with
          | some i =>
            if 8 < i then
              some (String.mk (replaceDoubleDot (pyStrip ((prefBody (clean raw)).1 ++ " " ++
                  String.mk ((prefBody (clean raw)).2.data.take (i + 1)))).data),
                pyStrip (String.mk ((prefBody (clean raw)).2.data.drop (i + 1))))
            else none
          | none => none) = (none : Option (String × String)) := by
      cases hfb : firstBoundary (prefBody (clean raw)).2.data with
      | none => rfl
      | some i =>
        have := hnb i hfb
        simp only []
        rw [if_neg (by omega)]
    rw [hfall]
    simp only []
    rw [if_neg (by omega)]

set_option maxRecDepth 40000 in
/-- C4 witness: the amended theorem applied at a splitting input and at a
300-character input with no sentence boundary. -/
theorem C4_split_witness :
    (firstBoundary (prefBody (clean "Раздел 2. Введение в курс. Основные понятия предметной области")).2.data = some 15 ∧
     split_section_name_content "Раздел 2. Введение в курс. Основные понятия предметной области" =
       (String.mk (replaceDoubleDot (pyStrip ((prefBody (clean "Раздел 2. Введение в курс. Основные понятия предметной области")).1 ++ " " ++
           String.mk ((prefBody (clean "Раздел 2. Введение в курс. Основные понятия предметной области")).2.data.take 16))).data),
        pyStrip (String.mk ((prefBody (clean "Раздел 2. Введение в курс. Основные понятия предметной области")).2.data.drop 16)))) ∧
    (300 ≤ (clean (String.mk (List.replicate 300 'a'))).data.length ∧
     split_section_name_content (String.mk (List.replicate 300 'a')) =
       (String.mk ((clean (String.mk (List.replicate 300 'a'))).data.take 120) ++ "...",
        String.mk ((clean (String.mk (List.replicate 300 'a'))).data.drop 120))) := by
  refine ⟨⟨by decide, ?_⟩, ⟨by decide, ?_⟩⟩
  · exact (C4_split_theorem ("Раздел 2. Введение в курс. Основные понятия предметной области")).1 15
      (by decide) (by norm_num)
  · exact (C4_split_theorem (String.mk (List.replicate 300 'a'))).2
      (by decide) (by decide)

/-- C5 counterexample: a title under 300 characters that itself contains a
sentence boundary past the 8th character is split by the segmenter, so
applying the segmenter to `title + " "` (content empty) does not return
`(title, "")`. -/
theorem C5_idem_counterexample :
    "Abcdefghij. Klmnop".data.length < 300 ∧
    split_section_name_content ("Abcdefghij. Klmnop" ++ " ") ≠
      ("Abcdefghij. Klmnop", "") := by
  exact ⟨by decide, by decide⟩

/-- C5 amended: for every already-normalized title under 300 characters whose
prefix-stripped remainder has no sentence boundary past the 8th character,
the segmenter applied to `title + " "` (content empty) returns exactly
`(title, "")`. -/
theorem C5_idem_theorem (title : String)
    (hclean : clean title = title)
    (hlen : title.data.length < 300)
    (hnb : ∀ i, firstBoundary (prefBody title).2.data = some i → i ≤ 8) :
    split_section_name_content (title ++ " ") = (title, "") := by
  have htxt : clean (title ++ " ") = title := by rw [clean_append_space, hclean]
  by_cases hempty : title = ""
  · subst hempty
    decide
  · unfold split_section_name_content
    rw [htxt]
    simp only [hempty, if_false]
    have hfall :
        (match firstBoundary (prefBody title).2.data with
          | some i =>
            if 8 < i then
              some (String.mk (replaceDoubleDot (pyStrip ((prefBody title).1 ++ " " ++
                  String.mk ((prefBody title).2.data.take (i + 1)))).data),
                pyStrip (String.mk ((prefBody title).2.data.drop (i + 1))))
            else none
          | none => none) = (none : Option (String × String)) := by
      cases hfb : firstBoundary (prefBody title).2.data with
      | none => rfl
      | some i =>
        have := hnb i hfb
        simp only []
        rw [if_neg (by omega)]
    rw [hfall]
    simp only []
    rw [if_pos hlen]

/-- C5 witness: the amended theorem applied to a concrete normalized title. -/
theorem C5_idem_witness :
    clean "Тема 3. Сети и протоколы" = "Тема 3. Сети и протоколы" ∧
    "Тема 3. Сети и протоколы".data.length < 300 ∧
    split_section_name_content ("Тема 3. Сети и протоколы" ++ " ") =
      ("Тема 3. Сети и протоколы", "") := by
  refine ⟨by decide, by decide, ?_⟩
  exact C5_idem_theorem ("Тема 3. Сети и протоколы") (by decide) (by decide)
    (by decide)

/-! ## Helper lemmas for the software matcher -/

namespace SoftwareMatcher

theorem secCore_scoreMap (software : List String) (sec : SectionDetail) :
    secCore (scoreMap software sec) = secCore sec := by
  cases sec; rfl

theorem scoreMap_eq_rebuild (software : List String) (sec : SectionDetail) :
    scoreMap software sec = rebuildScored software (secCore sec) := by
  cases sec; rfl

theorem scorePhase_eq (software : List String) (l : List SectionDetail) :
    scorePhase software l = (l.map secCore).map (rebuildScored software) := by
  unfold scorePhase
  rw [List.map_map]
  exact List.map_congr_left (fun sec _ => scoreMap_eq_rebuild software sec)

theorem scorePhase_congr (software : List String) {l₁ l₂ : List SectionDetail}
    (h : l₁.map secCore = l₂.map secCore) :
    scorePhase software l₁ = scorePhase software l₂ := by
  rw [scorePhase_eq, scorePhase_eq, h]

theorem set_of_get? : ∀ (l : List α) (i : Nat) (a : α),
    l.get? i = some a → l.set i a = l
  | [], _, _, h => Option.noConfusion h
  | x :: t, 0, a, h => by
    have h' : x = a := Option.some.inj h
    show a :: t = x :: t
    rw [h']
  | x :: t, i + 1, a, h => by
    show x :: t.set i a = x :: t
    rw [set_of_get? t i a h]

theorem get?_set_self : ∀ (l : List α) (i : Nat) (a : α),
    i < l.length → (l.set i a).get? i = some a
  | [], i, _, h => absurd h (by simp)
  | x :: t, 0, a, _ => rfl
  | x :: t, i + 1, a, h => by
    show (t.set i a).get? i = some a
    exact get?_set_self t i a (by simpa using h)

theorem get?_set_other : ∀ (l : List α) (i j : Nat) (a : α),
    i ≠ j → (l.set i a).get? j = l.get? j
  | [], _, _, _, _ => by simp
  | x :: t, 0, 0, a, h => absurd rfl h
  | x :: t, 0, j + 1, a, _ => rfl
  | x :: t, i + 1, 0, a, _ => rfl
  | x :: t, i + 1, j + 1, a, h => by
    show (t.set i a).get? j = t.get? j
    exact get?_set_other t i j a (by omega)

theorem secCore_fallbackUpdate (s : SectionDetail) (sw : String) :
    secCore { s with linked_software := s.linked_software ++ [sw] } = secCore s := by
  cases s; rfl

theorem map_secCore_fallbackStep (h : String → Nat) (n : Nat)
    (secs : List SectionDetail) (sw : String) :
    (fallbackStep h n secs sw).map secCore = secs.map secCore := by
  unfold fallbackStep
  cases hg : secs.get? (h sw % n) with
  | none => rfl
  | some s =>
    dsimp only
    by_cases hc : s.linked_software.contains sw
    · rw [if_pos hc]
    · rw [if_neg hc, List.map_set]
      refine set_of_get? _ _ _ ?_
      rw [List.get?_map, hg]
      rw [Option.map_some']
      rw [secCore_fallbackUpdate]

theorem map_secCore_foldl (h : String → Nat) (n : Nat) :
    ∀ (ys : List String) (acc : List SectionDetail),
      (ys.foldl (fallbackStep h n) acc).map secCore = acc.map secCore
  | [], acc => rfl
  | y :: t, acc => by
    rw [List.foldl_cons, map_secCore_foldl h n t (fallbackStep h n acc y),
      map_secCore_fallbackStep]

theorem length_fallbackStep (h : String → Nat) (n : Nat)
    (secs : List SectionDetail) (sw : String) :
    (fallbackStep h n secs sw).length = secs.length := by
  unfold fallbackStep
  cases hg : secs.get? (h sw % n) with
  | none => rfl
  | some s =>
    dsimp only
    by_cases hc : s.linked_software.contains sw
    · rw [if_pos hc]
    · rw [if_neg hc, List.length_set]

theorem length_foldl_fallback (h : String → Nat) (n : Nat) :
    ∀ (ys : List String) (acc : List SectionDetail),
      (ys.foldl (fallbackStep h n) acc).length = acc.length
  | [], acc => rfl
  | y :: t, acc => by
    rw [List.foldl_cons, length_foldl_fallback h n t (fallbackStep h n acc y),
      length_fallbackStep]

theorem map_secCore_matchSections (h : String → Nat) (sections : List SectionDetail)
    (software : List String) :
    (matchSections h sections software).map secCore = sections.map secCore := by
  unfold matchSections
  split
  · rfl
  · rw [map_secCore_foldl]
    unfold scorePhase
    rw [List.map_map]
    exact List.map_congr_left (fun sec _ => secCore_scoreMap software sec)

end SoftwareMatcher

namespace SoftwareMatcher

theorem length_matchSections (h : String → Nat) (sections : List SectionDetail)
    (software : List String) :
    (matchSections h sections software).length = sections.length := by
  unfold matchSections
  split
  · rfl
  · rw [length_foldl_fallback]
    exact List.length_map _ _

theorem contains_iff {l : List String} {a : String} : l.contains a = true ↔ a ∈ l := by
  simp [List.contains]

theorem fallbackStep_mono (h : String → Nat) (n : Nat) (secs : List SectionDetail)
    (sw : String) {i : Nat} {x : String} {sec : SectionDetail}
    (hget : secs.get? i = some sec) (hx : x ∈ sec.linked_software) :
    ∃ sec', (fallbackStep h n secs sw).get? i = some sec' ∧ x ∈ sec'.linked_software := by
  unfold fallbackStep
  cases hg : secs.get? (h sw % n) with
  | none => exact ⟨sec, hget, hx⟩
  | some s =>
    dsimp only
    by_cases hc : s.linked_software.contains sw
    · rw [if_pos hc]; exact ⟨sec, hget, hx⟩
    · rw [if_neg hc]
      by_cases hij : (h sw % n) = i
      · subst hij
        have hss : sec = s := by
          rw [hget] at hg
          exact Option.some.inj hg
        subst hss
        have hlt : h sw % n < secs.length := by
          by_contra hge
          rw [List.get?_eq_none.mpr (Nat.le_of_not_lt hge)] at hg
          exact Option.noConfusion hg
        exact ⟨_, get?_set_self _ _ _ hlt, List.mem_append_left _ hx⟩
      · exact ⟨sec, by rw [get?_set_other _ _ _ _ hij]; exact hget, hx⟩

theorem foldl_fallback_mono (h : String → Nat) (n : Nat) :
    ∀ (ys : List String) (acc : List SectionDetail) {i : Nat} {x : String}
      {sec : SectionDetail}, acc.get? i = some sec → x ∈ sec.linked_software →
      ∃ sec', (ys.foldl (fallbackStep h n) acc).get? i = some sec' ∧
        x ∈ sec'.linked_software
  | [], acc, _, _, sec, hget, hx => ⟨sec, hget, hx⟩
  | y :: t, acc, i, x, sec, hget, hx => by
    rw [List.foldl_cons]
    obtain ⟨sec', h1, h2⟩ := fallbackStep_mono h n acc y hget hx
    exact foldl_fallback_mono h n t _ h1 h2

theorem fallbackStep_adds (h : String → Nat) (n : Nat) (secs : List SectionDetail)
    (sw : String) (hn : n = secs.length) (hpos : 0 < n) :
    ∃ sec', (fallbackStep h n secs sw).get? (h sw % n) = some sec' ∧
      sw ∈ sec'.linked_software := by
  have hlt : h sw % n < secs.length := hn ▸ Nat.mod_lt _ hpos
  obtain ⟨s, hs⟩ : ∃ s, secs.get? (h sw % n) = some s :=
    ⟨secs.get ⟨_, hlt⟩, List.get?_eq_get hlt⟩
  unfold fallbackStep
  rw [hs]
  dsimp only
  by_cases hc : s.linked_software.contains sw
  · rw [if_pos hc]
    exact ⟨s, hs, contains_iff.mp hc⟩
  · rw [if_neg hc]
    exact ⟨_, get?_set_self _ _ _ hlt, List.mem_append_right _ (List.mem_singleton.mpr rfl)⟩

theorem foldl_fallback_adds (h : String → Nat) (n : Nat) (hpos : 0 < n) :
    ∀ (ys : List String) (acc : List SectionDetail), n = acc.length →
      ∀ x ∈ ys, ∃ sec', (ys.foldl (fallbackStep h n) acc).get? (h x % n) = some sec' ∧
        x ∈ sec'.linked_software
  | [], _, _, x, hx => absurd hx (List.not_mem_nil x)
  | y :: t, acc, hn, x, hx => by
    rw [List.foldl_cons]
    rcases List.mem_cons.mp hx with rfl | hxt
    · obtain ⟨sec', h1, h2⟩ := fallbackStep_adds h n acc x hn hpos
      exact foldl_fallback_mono h n t _ h1 h2
    · exact foldl_fallback_adds h n hpos t (fallbackStep h n acc y)
        (hn.trans (length_fallbackStep h n acc y).symm) x hxt

theorem fallbackStep_mem_src (h : String → Nat) (n : Nat) (secs : List SectionDetail)
    (y : String) {j : Nat} {x : String} {sec' : SectionDetail}
    (hget : (fallbackStep h n secs y).get? j = some sec')
    (hx : x ∈ sec'.linked_software) :
    (∃ sec, secs.get? j = some sec ∧ x ∈ sec.linked_software) ∨
      (x = y ∧ j = h y % n) := by
  unfold fallbackStep at hget
  revert hget
  cases hg : secs.get? (h y % n) with
  | none =>
    intro hget
    exact Or.inl ⟨sec', hget, hx⟩
  | some s =>
    dsimp only
    by_cases hc : s.linked_software.contains y
    · rw [if_pos hc]
      intro hget
      exact Or.inl ⟨sec', hget, hx⟩
    · rw [if_neg hc]
      intro hget
      by_cases hj : (h y % n) = j
      · subst hj
        have hlt : h y % n < secs.length := by
          by_contra hge
          rw [List.get?_eq_none.mpr (Nat.le_of_not_lt hge)] at hg
          exact Option.noConfusion hg
        rw [get?_set_self _ _ _ hlt] at hget
        have hsec' := Option.some.inj hget
        rw [← hsec'] at hx
        rcases List.mem_append.mp hx with hmem | hmem
        · exact Or.inl ⟨s, hg, hmem⟩
        · exact Or.inr ⟨List.mem_singleton.mp hmem, rfl⟩
      · rw [get?_set_other _ _ _ _ hj] at hget
        exact Or.inl ⟨sec', hget, hx⟩

theorem foldl_fallback_mem_src (h : String → Nat) (n : Nat) :
    ∀ (ys : List String) (acc : List SectionDetail) {j : Nat} {x : String}
      {sec' : SectionDetail},
      (ys.foldl (fallbackStep h n) acc).get? j = some sec' →
      x ∈ sec'.linked_software →
      (∃ sec, acc.get? j = some sec ∧ x ∈ sec.linked_software) ∨
        (x ∈ ys ∧ j = h x % n)
  | [], acc, _, _, sec', hget, hx => Or.inl ⟨sec', hget, hx⟩
  | y :: t, acc, j, x, sec', hget, hx => by
    rw [List.foldl_cons] at hget
    rcases foldl_fallback_mem_src h n t (fallbackStep h n acc y) hget hx with hsrc | ⟨hmem, hj⟩
    · obtain ⟨sec0, hg0, hx0⟩ := hsrc
      rcases fallbackStep_mem_src h n acc y hg0 hx0 with hinit | ⟨hxy, hjy⟩
      · exact Or.inl hinit
      · subst hxy
        exact Or.inr ⟨List.mem_cons_self _ _, hjy⟩
    · exact Or.inr ⟨List.mem_cons_of_mem _ hmem, hj⟩

end SoftwareMatcher

/-- C6: the software matcher is deterministic within one process: with the
same (arbitrary) string-hash function, re-running the matcher over the
sections it has already annotated (Python mutates the section list in place)
reproduces exactly the same `linked_software` assignments, including the
hash-based fallback assignment. -/
theorem C6_matcher_determinism (h : String → Nat) (sections : List SectionDetail)
    (software : List String) :
    SoftwareMatcher.matchSections h (SoftwareMatcher.matchSections h sections software)
        software =
      SoftwareMatcher.matchSections h sections software := by
  by_cases hg : (software.isEmpty || sections.isEmpty) = true
  · have hinner : SoftwareMatcher.matchSections h sections software = sections := by
      unfold SoftwareMatcher.matchSections
      rw [if_pos hg]
    rw [hinner]
    unfold SoftwareMatcher.matchSections
    rw [if_pos hg]
  · have hlen : (SoftwareMatcher.matchSections h sections software).length =
        sections.length := SoftwareMatcher.length_matchSections h sections software
    have hg2 : ¬ ((software.isEmpty ||
        (SoftwareMatcher.matchSections h sections software).isEmpty) = true) := by
      simp only [Bool.or_eq_true, List.isEmpty_iff] at hg ⊢
      push_neg at hg ⊢
      refine ⟨hg.1, ?_⟩
      intro hnil
      have := congrArg List.length hnil
      rw [hlen] at this
      exact hg.2 (List.length_eq_zero.mp this)
    have hcore := SoftwareMatcher.map_secCore_matchSections h sections software
    have hsp : SoftwareMatcher.scorePhase software
        (SoftwareMatcher.matchSections h sections software) =
        SoftwareMatcher.scorePhase software sections :=
      SoftwareMatcher.scorePhase_congr software hcore
    conv_lhs => rw [SoftwareMatcher.matchSections]
    rw [if_neg hg2, hsp, hlen]
    conv_rhs => rw [SoftwareMatcher.matchSections]
    rw [if_neg hg]

/-- C7: after the matcher runs on non-empty section and software lists, every
software item is linked to at least one section; an item matched by the
keyword scoring in no section ends up linked exactly to the section at index
`hash(name) % len(sections)`. -/
theorem C7_fallback_coverage (h : String → Nat) (sections : List SectionDetail)
    (software : List String) (hsec : sections ≠ []) (hsw : software ≠ [])
    (s : String) (hs : s ∈ software) :
    (∃ sec ∈ SoftwareMatcher.matchSections h sections software,
      s ∈ sec.linked_software) ∧
    ((∀ sec ∈ SoftwareMatcher.scorePhase software sections, s ∉ sec.linked_software) →
      ∀ j sec, (SoftwareMatcher.matchSections h sections software).get? j = some sec →
        (s ∈ sec.linked_software ↔ j = h s % sections.length)) := by
  have hgE : ¬ ((software.isEmpty || sections.isEmpty) = true) := by
    simp only [Bool.or_eq_true, List.isEmpty_iff]
    push_neg
    exact ⟨hsw, hsec⟩
  have hmain : SoftwareMatcher.matchSections h sections software =
      (SoftwareMatcher.unmatchedOf software
          (SoftwareMatcher.scorePhase software sections)).foldl
        (SoftwareMatcher.fallbackStep h sections.length)
        (SoftwareMatcher.scorePhase software sections) := by
    unfold SoftwareMatcher.matchSections
    rw [if_neg hgE]
  have hpos : 0 < sections.length := List.length_pos.mpr hsec
  have hlen_init : sections.length =
      (SoftwareMatcher.scorePhase software sections).length :=
    (List.length_map _ _).symm
  have hunm : (∀ sec ∈ SoftwareMatcher.scorePhase software sections,
      s ∉ sec.linked_software) →
      s ∈ SoftwareMatcher.unmatchedOf software
        (SoftwareMatcher.scorePhase software sections) := by
    intro habs
    unfold SoftwareMatcher.unmatchedOf
    rw [List.mem_filter]
    refine ⟨hs, ?_⟩
    simp only [List.any_eq_true, SoftwareMatcher.contains_iff, decide_eq_true_eq]
    push_neg
    intro sec hsecm
    exact habs sec hsecm
  constructor
  · by_cases hm : ∃ sec ∈ SoftwareMatcher.scorePhase software sections,
        s ∈ sec.linked_software
    · obtain ⟨sec, hmem, hx⟩ := hm
      obtain ⟨i, hi⟩ := List.mem_iff_get?.mp hmem
      obtain ⟨sec', h1, h2⟩ := SoftwareMatcher.foldl_fallback_mono h sections.length
        (SoftwareMatcher.unmatchedOf software
          (SoftwareMatcher.scorePhase software sections)) _ hi hx
      rw [hmain]
      exact ⟨sec', List.get?_mem h1, h2⟩
    · have habs : ∀ sec ∈ SoftwareMatcher.scorePhase software sections,
          s ∉ sec.linked_software := by
        intro sec hmem hx
        exact hm ⟨sec, hmem, hx⟩
      obtain ⟨sec', h1, h2⟩ := SoftwareMatcher.foldl_fallback_adds h sections.length hpos
        (SoftwareMatcher.unmatchedOf software
          (SoftwareMatcher.scorePhase software sections))
        (SoftwareMatcher.scorePhase software sections) hlen_init s (hunm habs)
      rw [hmain]
      exact ⟨sec', List.get?_mem h1, h2⟩
  · intro habs j sec hget
    rw [hmain] at hget
    constructor
    · intro hx
      rcases SoftwareMatcher.foldl_fallback_mem_src h sections.length _ _ hget hx with
        ⟨sec0, hg0, hx0⟩ | ⟨_, hj⟩
      · exact absurd hx0 (habs sec0 (List.get?_mem hg0))
      · exact hj
    · intro hj
      subst hj
      obtain ⟨sec', h1, h2⟩ := SoftwareMatcher.foldl_fallback_adds h sections.length hpos
        (SoftwareMatcher.unmatchedOf software
          (SoftwareMatcher.scorePhase software sections))
        (SoftwareMatcher.scorePhase software sections) hlen_init s (hunm habs)
      have := h1.symm.trans hget
      rw [Option.some.inj this] at h2
      exact h2

/-- C7 witness: one section with no textual evidence for "Git"; the item is
force-assigned to the single section at hash index 0. -/
theorem C7_fallback_witness :
    (([{ name := "Введение", content := "общие сведения" }] : List SectionDetail) ≠ [] ∧
     (["Git"] : List String) ≠ [] ∧ "Git" ∈ (["Git"] : List String)) ∧
    (∃ sec ∈ SoftwareMatcher.matchSections (fun _ => 0)
        [{ name := "Введение", content := "общие сведения" }] ["Git"],
      "Git" ∈ sec.linked_software) := by
  refine ⟨⟨by decide, by decide, by decide⟩, ?_⟩
  exact (C7_fallback_coverage (fun _ => 0)
    [{ name := "Введение", content := "общие сведения" }] ["Git"]
    (by decide) (by decide) "Git" (by decide)).1

/-- C8 counterexample: in the goals collecting state an 85-character
trailing-colon line without a goal stem is appended, not skipped — the goals
extractor's threshold is 80 characters, not the claimed 100.  Shown both at
the step level and through the full method-1 paragraph machine. -/
theorem C8_colon_counterexample :
    ("Также рассматриваются вопросы организации работы с данными и средствами визуализации:".length < 100) ∧
    endsColon "Также рассматриваются вопросы организации работы с данными и средствами визуализации:" = true ∧
    (goalStems.any fun kw => containsSub
      (lowerStr "Также рассматриваются вопросы организации работы с данными и средствами визуализации:") kw) = false ∧
    goalsCollectStep ["изучение предмета."]
        "Также рассматриваются вопросы организации работы с данными и средствами визуализации:" =
      CollectStep.cont ["изучение предмета.",
        "Также рассматриваются вопросы организации работы с данными и средствами визуализации:"] ∧
    extract_goals_method1 ["Цели дисциплины: изучение предмета.",
        "Также рассматриваются вопросы организации работы с данными и средствами визуализации:"] =
      "изучение предмета. Также рассматриваются вопросы организации работы с данными и средствами визуализации:" := by
  refine ⟨by decide, by decide, by decide, by decide, by decide⟩

/-- C8 amended: in the goals collecting state, a trailing-colon line is
skipped only when it is shorter than 80 characters (not 100) and contains no
goal stem; the description collecting state skips trailing-colon lines
shorter than 100 characters unconditionally.  In both machines a line that
matches a stop pattern also leaves the buffer unchanged. -/
theorem C8_colon_theorem :
    (∀ (buf : List String) (t : String), t.length < 80 → endsColon t = true →
      (goalStems.any fun kw => containsSub (lowerStr t) kw) = false →
      (goalsCollectStep buf t).buffer = buf) ∧
    (∀ (buf : List String) (t : String), t.length < 100 → endsColon t = true →
      (descCollectStep buf t).buffer = buf) := by
  constructor
  · intro buf t h1 h2 h3
    unfold goalsCollectStep
    by_cases hstop : goalsStops.any (fun p => reMatch p t) = true
    · rw [if_pos hstop]; rfl
    · rw [if_neg hstop]
      have hcond : (decide (t.length < 80) && endsColon t &&
          !(goalStems.any fun kw => containsSub (lowerStr t) kw)) = true := by
        rw [h2, h3]
        simp [h1]
      rw [if_pos hcond]
      rfl
  · intro buf t h1 h2
    unfold descCollectStep
    by_cases hstop : descStops.any (fun p => reMatch p t) = true
    · rw [if_pos hstop]; rfl
    · rw [if_neg hstop]
      have hcond : (decide (t.length < 100) && endsColon t) = true := by
        rw [h2]
        simp [h1]
      rw [if_pos hcond]
      rfl

/-- C8 witness: the amended skip rules applied at concrete short
trailing-colon lines. -/
theorem C8_colon_witness :
    ("Содержит разделы:".length < 80 ∧ endsColon "Содержит разделы:" = true ∧
     (goalStems.any fun kw => containsSub (lowerStr "Содержит разделы:") kw) = false ∧
     (goalsCollectStep ["x"] "Содержит разделы:").buffer = ["x"]) ∧
    ("Включает темы:".length < 100 ∧ endsColon "Включает темы:" = true ∧
     (descCollectStep ["y"] "Включает темы:").buffer = ["y"]) := by
  refine ⟨⟨by decide, by decide, by decide, ?_⟩, ⟨by decide, by decide, ?_⟩⟩
  · exact C8_colon_theorem.1 ["x"] "Содержит разделы:" (by decide) (by decide) (by decide)
  · exact C8_colon_theorem.2 ["y"] "Включает темы:" (by decide) (by decide)

/-! ## Shape lemmas for the year and pages scanners -/

theorem yearAt_shape {l ds : List Char} (h : LiteratureParser.yearAt l = some ds) :
    ds.length = 4 ∧ ds.all isDigitCh = true ∧ 1950 ≤ digitsVal ds ∧ digitsVal ds ≤ 2039 := by
  match l, h with
  | a :: b :: c :: d :: rest, h =>
    unfold LiteratureParser.yearAt at h
    dsimp only at h
    split_ifs at h with h1 h2
    · have hds : ds = [a, b, c, d] := (Option.some.inj h).symm
      subst hds
      simp only [Bool.and_eq_true, decide_eq_true_eq, beq_iff_eq] at h1
      obtain ⟨⟨⟨ha, hb⟩, hc⟩, hd⟩ := h1
      subst ha; subst hb
      simp only [isDigitCh, Bool.and_eq_true, decide_eq_true_eq] at hd
      refine ⟨rfl, ?_, ?_, ?_⟩
      · simp [List.all_cons, isDigitCh]
        omega
      · simp only [digitsVal, List.foldl]
        have : ('1' : Char).toNat = 49 := by decide
        rw [this]
        have : ('9' : Char).toNat = 57 := by decide
        rw [this]
        omega
      · simp only [digitsVal, List.foldl]
        have : ('1' : Char).toNat = 49 := by decide
        rw [this]
        have : ('9' : Char).toNat = 57 := by decide
        rw [this]
        omega
    · have hds : ds = [a, b, c, d] := (Option.some.inj h).symm
      subst hds
      simp only [Bool.and_eq_true, decide_eq_true_eq, beq_iff_eq] at h2
      obtain ⟨⟨⟨ha, hb⟩, hc⟩, hd⟩ := h2
      subst ha; subst hb
      simp only [isDigitCh, Bool.and_eq_true, decide_eq_true_eq] at hd
      refine ⟨rfl, ?_, ?_, ?_⟩
      · simp [List.all_cons, isDigitCh]
        omega
      · simp only [digitsVal, List.foldl]
        have : ('2' : Char).toNat = 50 := by decide
        rw [this]
        have : ('0' : Char).toNat = 48 := by decide
        rw [this]
        omega
      · simp only [digitsVal, List.foldl]
        have : ('2' : Char).toNat = 50 := by decide
        rw [this]
        have : ('0' : Char).toNat = 48 := by decide
        rw [this]
        omega

theorem pagesAt_shape {l ds : List Char} (h : LiteratureParser.pagesAt l = some ds) :
    ds ≠ [] ∧ ds.all isDigitCh = true := by
  match l, h with
  | c :: rest, h =>
    unfold LiteratureParser.pagesAt at h
    dsimp only at h
    set r1 := rest.dropWhile isPyWs with hr1
    set ds0 := r1.takeWhile isDigitCh with hds0
    split_ifs at h with h1 hde
    have hshape : ds = ds0 := by
      revert h
      cases hm : (r1.drop ds0.length).dropWhile isPyWs with
      | nil => intro h; exact Option.noConfusion h
      | cons s r4 =>
        dsimp only
        cases r4 <;> dsimp only <;> intro h <;> split_ifs at h <;>
          first
            | exact Option.noConfusion h
            | exact (Option.some.inj h).symm
    subst hshape
    constructor
    · intro hnil
      rw [hnil] at hde
      exact hde rfl
    · rw [List.all_eq_true]
      intro x hx
      exact List.mem_takeWhile_imp hx

theorem searchFirst_shape {P : List Char → Prop} (f : List Char → Option (List Char))
    (hf : ∀ l ds, f l = some ds → P ds) :
    ∀ l ds, searchFirst f l = some ds → P ds := by
  intro l
  induction l with
  | nil => intro ds h; exact hf [] ds h
  | cons c t ih =>
    intro ds h
    unfold searchFirst at h
    revert h
    cases hfl : f (c :: t) with
    | some x =>
      dsimp only
      intro h
      have hx := hf _ x hfl
      rwa [Option.some.inj h] at hx
    | none =>
      dsimp only
      intro h
      exact ih ds h

set_option maxRecDepth 100000 in
/-- C1: on the claim's concrete citation the parser extracts year "2020",
pages "300 с.", entry type "book", and a non-empty title free of the author
token; and for every entry, an extracted year is a 4-digit number between
1950 and 2039, and an extracted page count is a digit string from the
`N с.` pattern. -/
theorem C1_parse_entry_theorem :
    ((LiteratureParser.parse_entry
        "2. Петров П.П. Физика. – СПб.: Наука, 2020. – 300 с.").year = some "2020" ∧
     (LiteratureParser.parse_entry
        "2. Петров П.П. Физика. – СПб.: Наука, 2020. – 300 с.").pages = "300 с." ∧
     (LiteratureParser.parse_entry
        "2. Петров П.П. Физика. – СПб.: Наука, 2020. – 300 с.").entry_type = "book" ∧
     (LiteratureParser.parse_entry
        "2. Петров П.П. Физика. – СПб.: Наука, 2020. – 300 с.").title = "Физика" ∧
     (LiteratureParser.parse_entry
        "2. Петров П.П. Физика. – СПб.: Наука, 2020. – 300 с.").title ≠ "" ∧
     containsSub (LiteratureParser.parse_entry
        "2. Петров П.П. Физика. – СПб.: Наука, 2020. – 300 с.").title
       "Петров П.П." = false) ∧
    (∀ raw y, (LiteratureParser.parse_entry raw).year = some y →
      y.data.length = 4 ∧ y.data.all isDigitCh = true ∧
      1950 ≤ digitsVal y.data ∧ digitsVal y.data ≤ 2039) ∧
    (∀ raw, (LiteratureParser.parse_entry raw).pages = "" ∨
      ∃ ds, ds ≠ [] ∧ ds.all isDigitCh = true ∧
        (LiteratureParser.parse_entry raw).pages = String.mk ds ++ " с.") := by
  refine ⟨⟨by decide, by decide, by decide, by decide, by decide, by decide⟩, ?_, ?_⟩
  · intro raw y h
    have hy : (LiteratureParser.parse_entry raw).year =
        (searchFirst LiteratureParser.yearAt
          (pyStrip (String.mk (match LiteratureParser.numStrip raw.data with
            | some (_, rest) => rest
            | none => raw.data))).data).map String.mk := rfl
    rw [hy] at h
    revert h
    cases hs : searchFirst LiteratureParser.yearAt
        (pyStrip (String.mk (match LiteratureParser.numStrip raw.data with
          | some (_, rest) => rest
          | none => raw.data))).data with
    | none => intro h; exact Option.noConfusion h
    | some ds =>
      dsimp only [Option.map_some']
      intro h
      have hshape := searchFirst_shape LiteratureParser.yearAt
        (fun _ _ hh => yearAt_shape hh) _ ds hs
      rw [← Option.some.inj h]
      exact hshape
  · intro raw
    have hp : (LiteratureParser.parse_entry raw).pages =
        (match searchFirst LiteratureParser.pagesAt
          (pyStrip (String.mk (match LiteratureParser.numStrip raw.data with
            | some (_, rest) => rest
            | none => raw.data))).data with
          | some ds => String.mk ds ++ " с."
          | none => "") := rfl
    rw [hp]
    cases hs : searchFirst LiteratureParser.pagesAt
        (pyStrip (String.mk (match LiteratureParser.numStrip raw.data with
          | some (_, rest) => rest
          | none => raw.data))).data with
    | none => exact Or.inl rfl
    | some ds =>
      have hshape := searchFirst_shape LiteratureParser.pagesAt
        (fun _ _ hh => pagesAt_shape hh) _ ds hs
      exact Or.inr ⟨ds, hshape.1, hshape.2, rfl⟩

set_option maxRecDepth 100000 in
/-- C1 witness: the universal year/pages properties applied at the claim's
concrete citation. -/
theorem C1_parse_entry_witness :
    ((LiteratureParser.parse_entry
        "2. Петров П.П. Физика. – СПб.: Наука, 2020. – 300 с.").year = some "2020" ∧
     ("2020".data.length = 4 ∧ "2020".data.all isDigitCh = true ∧
      1950 ≤ digitsVal "2020".data ∧ digitsVal "2020".data ≤ 2039)) ∧
    ((LiteratureParser.parse_entry
        "2. Петров П.П. Физика. – СПб.: Наука, 2020. – 300 с.").pages = "" ∨
      ∃ ds, ds ≠ [] ∧ ds.all isDigitCh = true ∧
        (LiteratureParser.parse_entry
          "2. Петров П.П. Физика. – СПб.: Наука, 2020. – 300 с.").pages =
            String.mk ds ++ " с.") := by
  refine ⟨⟨by decide, ?_⟩, ?_⟩
  · exact C1_parse_entry_theorem.2.1
      "2. Петров П.П. Физика. – СПб.: Наука, 2020. – 300 с." "2020" (by decide)
  · exact C1_parse_entry_theorem.2.2
      "2. Петров П.П. Физика. – СПб.: Наука, 2020. – 300 с."

/-! ## Helper lemmas for the table extractor -/

theorem listContains_iff {α : Type} [BEq α] [LawfulBEq α] {l : List α} {a : α} :
    l.contains a = true ↔ a ∈ l := by
  simp [List.contains]

theorem mem_hourAcc {acc : List Nat} {i x : Nat} {cell : Cell} :
    (x ∈ (if isHourCell cell && !acc.contains i then acc ++ [i] else acc)) ↔
      (x ∈ acc ∨ (isHourCell cell = true ∧ x = i)) := by
  split_ifs with hc
  · simp only [Bool.and_eq_true, Bool.not_eq_true'] at hc
    simp only [List.mem_append, List.mem_singleton]
    constructor
    · rintro (h | rfl)
      · exact Or.inl h
      · exact Or.inr ⟨hc.1, rfl⟩
    · rintro (h | ⟨_, rfl⟩)
      · exact Or.inl h
      · exact Or.inr rfl
  · by_cases hh : isHourCell cell = true
    · have hcont : acc.contains i = true := by
        cases hb : acc.contains i with
        | true => rfl
        | false => exact absurd (by rw [hh, hb]; rfl) hc
      constructor
      · exact Or.inl
      · rintro (h | ⟨_, rfl⟩)
        · exact h
        · exact listContains_iff.mp hcont
    · simp [hh]

theorem mem_collectCells (x : Nat) : ∀ (cells : List Cell) (acc : List Nat) (i : Nat),
    x ∈ collectCells acc i cells ↔
      (x ∈ acc ∨ ∃ j cell, cells.get? j = some cell ∧ x = i + j ∧ isHourCell cell = true)
  | [], acc, i => by simp [collectCells]
  | cell :: rest, acc, i => by
    unfold collectCells
    rw [mem_collectCells x rest _ (i + 1), mem_hourAcc]
    constructor
    · rintro ((hx | ⟨hh, rfl⟩) | ⟨j, c', hg, hxe, hc⟩)
      · exact Or.inl hx
      · exact Or.inr ⟨0, cell, rfl, (Nat.add_zero x).symm, hh⟩
      · exact Or.inr ⟨j + 1, c', hg, by omega, hc⟩
    · rintro (hx | ⟨j, c', hg, hxe, hc⟩)
      · exact Or.inl (Or.inl hx)
      · cases j with
        | zero =>
          have hcc : cell = c' := Option.some.inj (hg : some cell = some c')
          subst hcc
          exact Or.inl (Or.inr ⟨hc, by omega⟩)
        | succ j' =>
          exact Or.inr ⟨j', c', hg, by omega, hc⟩

theorem mem_foldl_collectRow (x : Nat) : ∀ (rows : List Row) (acc : List Nat),
    x ∈ rows.foldl collectRow acc ↔
      (x ∈ acc ∨ ∃ row ∈ rows, ∃ cell, row.get? x = some cell ∧ isHourCell cell = true)
  | [], acc => by simp
  | row :: rest, acc => by
    rw [List.foldl_cons, mem_foldl_collectRow x rest (collectRow acc row)]
    unfold collectRow
    rw [mem_collectCells x row acc 0]
    constructor
    · rintro ((hx | ⟨j, cell, hg, hxe, hc⟩) | ⟨r, hr, cell, hg, hc⟩)
      · exact Or.inl hx
      · refine Or.inr ⟨row, List.mem_cons_self _ _, cell, ?_, hc⟩
        rwa [show x = j from by omega]
      · exact Or.inr ⟨r, List.mem_cons_of_mem _ hr, cell, hg, hc⟩
    · rintro (hx | ⟨r, hr, cell, hg, hc⟩)
      · exact Or.inl (Or.inl hx)
      · rcases List.mem_cons.mp hr with rfl | hr'
        · exact Or.inl (Or.inr ⟨x, cell, hg, by omega, hc⟩)
        · exact Or.inr ⟨r, hr', cell, hg, hc⟩

theorem nodup_append_one {α : Type} {l : List α} {x : α} (h : l.Nodup) (hx : x ∉ l) :
    (l ++ [x]).Nodup := by
  simp [List.nodup_append, h, hx]

theorem nodup_collectCells : ∀ (cells : List Cell) (acc : List Nat) (i : Nat),
    acc.Nodup → (collectCells acc i cells).Nodup
  | [], acc, i, h => h
  | cell :: rest, acc, i, h => by
    unfold collectCells
    refine nodup_collectCells rest _ (i + 1) ?_
    split_ifs with hc
    · simp only [Bool.and_eq_true, Bool.not_eq_true'] at hc
      refine nodup_append_one h ?_
      intro hi
      rw [← listContains_iff] at hi
      rw [hc.2] at hi
      exact Bool.noConfusion hi
    · exact h

theorem nodup_foldl_collectRow : ∀ (rows : List Row) (acc : List Nat),
    acc.Nodup → (rows.foldl collectRow acc).Nodup
  | [], _, h => h
  | row :: rest, acc, h =>
    nodup_foldl_collectRow rest _ (nodup_collectCells row acc 0 h)

theorem rowSection_hours {hcols : List Nat} {row : Row} {sec : SectionDetail}
    (h : rowSection hcols row = some sec) :
    sec.hours = assignHours (collectVals (cellsTextOf row) hcols) := by
  unfold rowSection at h
  split_ifs at h
  rw [← Option.some.inj h]

theorem collectVals_eq (cells : List String) : ∀ hcols : List Nat,
    collectVals cells hcols =
      (hcols.filter (fun idx => decide (idx < cells.length))).map
        (fun idx => if isDigitStr (pyStrip (cells.getD idx "")) then
          pyStrip (cells.getD idx "") else "0")
  | [] => rfl
  | idx :: rest => by
    unfold collectVals
    rw [collectVals_eq cells rest]
    by_cases hlt : idx < cells.length
    · rw [List.filter_cons_of_pos (by simpa using hlt), List.map_cons]
      rw [if_pos hlt]
    · rw [List.filter_cons_of_neg (by simpa using hlt)]
      rw [if_neg hlt]

/-- C3: the hour columns are exactly the sorted de-duplicated column indices
holding a short pure integer in one of the first 7 data rows; fewer than 2
such columns produce no sections; every produced section's hours come from
the positional assignment of the collected values, where 1 value sets
lectures, 2 add practice, exactly 3 set self-study (labs stays "0"), 4 or
more set labs and self-study, and a non-numeric cell yields "0". -/
theorem C3_hours_theorem :
    (∀ (table : Table) (i : Nat), i ∈ hourCols table ↔
      ∃ row ∈ (table.drop 1).take 7, ∃ cell, row.get? i = some cell ∧
        isHourCell cell = true) ∧
    (∀ table : Table, List.Sorted (· ≤ ·) (hourCols table) ∧ (hourCols table).Nodup) ∧
    (∀ table : Table, (hourCols table).length < 2 → tableSections table = []) ∧
    (∀ (table : Table) (sec : SectionDetail), sec ∈ tableSections table →
      ∃ row ∈ table, rowSection (hourCols table) row = some sec ∧
        sec.hours = assignHours (collectVals (cellsTextOf row) (hourCols table))) ∧
    (∀ vals : List String,
      (assignHours vals).lectures = vals.getD 0 "0" ∧
      (assignHours vals).practice = vals.getD 1 "0" ∧
      (assignHours vals).labs = (if 4 ≤ vals.length then vals.getD 2 "0" else "0") ∧
      (assignHours vals).self_study =
        (if vals.length = 3 then vals.getD 2 "0"
         else if 4 ≤ vals.length then vals.getD 3 "0" else "0")) ∧
    (∀ (cells : List String) (hcols : List Nat), collectVals cells hcols =
      (hcols.filter (fun idx => decide (idx < cells.length))).map
        (fun idx => if isDigitStr (pyStrip (cells.getD idx "")) then
          pyStrip (cells.getD idx "") else "0")) := by
  refine ⟨?_, ?_, ?_, ?_, ?_, ?_⟩
  · intro table i
    unfold hourCols
    rw [(List.perm_insertionSort (· ≤ ·) (hourColsBase table)).mem_iff]
    unfold hourColsBase
    rw [mem_foldl_collectRow i ((table.drop 1).take 7) []]
    simp only [List.not_mem_nil, false_or]
  · intro table
    unfold hourCols
    refine ⟨List.sorted_insertionSort (· ≤ ·) (hourColsBase table), ?_⟩
    rw [(List.perm_insertionSort (· ≤ ·) (hourColsBase table)).nodup_iff]
    exact nodup_foldl_collectRow _ [] List.nodup_nil
  · intro table hlt
    unfold tableSections
    split_ifs with h1 <;> rfl
  · intro table sec hmem
    unfold tableSections at hmem
    split_ifs at hmem <;>
      first
        | exact absurd hmem (List.not_mem_nil sec)
        | (obtain ⟨row, hrow, hsec⟩ := List.mem_filterMap.mp hmem
           exact ⟨row, hrow, hsec, rowSection_hours hsec⟩)
  · intro vals
    unfold assignHours
    rcases vals with _ | ⟨a, _ | ⟨b, _ | ⟨c, _ | ⟨d, rest⟩⟩⟩⟩ <;>
      simp [List.getD] <;> omega
  · intro cells hcols
    exact collectVals_eq cells hcols

/-- C3 witness: a table without two numeric columns produces no sections, and
the hour mapping on a concrete two-hour-column table. -/
theorem C3_hours_witness :
    ((hourCols demoTableNoHours).length < 2 ∧ tableSections demoTableNoHours = []) ∧
    (demoSection ∈ tableSections demoTable ∧
     ∃ row ∈ demoTable, rowSection (hourCols demoTable) row = some demoSection ∧
       demoSection.hours = assignHours (collectVals (cellsTextOf row) (hourCols demoTable))) := by
  refine ⟨⟨by decide, ?_⟩, ⟨by decide, ?_⟩⟩
  · exact C3_hours_theorem.2.2.1 demoTableNoHours (by decide)
  · exact C3_hours_theorem.2.2.2.1 demoTable demoSection (by decide)

/-- C9 counterexample: on a corrupt DOCX input the parser propagates the
decode error instead of returning a default record, so the claim fails for
the DOCX half (the PDF half does return the default). -/
theorem C9_decode_counterexample :
    parse_docx_structural (fun (_ : Unit) => ({} : DisciplineData))
        (Except.error DecodeError.corrupt) =
      Except.error DecodeError.corrupt ∧
    (∀ d : DisciplineData,
      parse_docx_structural (fun (_ : Unit) => ({} : DisciplineData))
          (Except.error DecodeError.corrupt) ≠ Except.ok d) ∧
    parse_pdf_regex (fun _ => ({} : DisciplineData))
        (Except.error DecodeError.corrupt) = ({} : DisciplineData) := by
  refine ⟨rfl, ?_, rfl⟩
  intro d h
  exact Except.noConfusion h

/-- C9 amended: for every corrupt input, `parse_pdf_regex` returns the
default `DisciplineData` instead of raising, while `parse_docx_structural`
propagates the decode error; on successfully decoded input both run their
bodies. -/
theorem C9_decode_theorem {α : Type} (bodyPdf : String → DisciplineData)
    (bodyDocx : α → DisciplineData) (e : DecodeError) :
    parse_pdf_regex bodyPdf (Except.error e) = ({} : DisciplineData) ∧
    parse_docx_structural bodyDocx (Except.error e) = Except.error e ∧
    (∀ text, parse_pdf_regex bodyPdf (Except.ok text) = bodyPdf text) ∧
    (∀ doc, parse_docx_structural bodyDocx (Except.ok doc) = Except.ok (bodyDocx doc)) :=
  ⟨rfl, rfl, fun _ => rfl, fun _ => rfl⟩

/-! ## Helper lemmas for the graph builder -/

theorem rootId_empty : rootId "" = "root" := rfl

theorem secId_data (i : Nat) : (secId "" i).data = 's' :: 'e' :: 'c' :: '-' :: (natStr i).data := rfl

theorem swId_data (i : Nat) : (swId "" i).data = 's' :: 'w' :: '-' :: (natStr i).data := rfl

theorem lmId_data (i : Nat) : (lmId "" i).data = 'l' :: 'm' :: '-' :: (natStr i).data := rfl

theorem laId_data (i : Nat) : (laId "" i).data = 'l' :: 'a' :: '-' :: (natStr i).data := rfl

theorem ne_of_data_ne {s t : String} (h : s.data ≠ t.data) : s ≠ t :=
  fun he => h (congrArg String.data he)

theorem natStr_of_data {i j : Nat} (h : (natStr i).data = (natStr j).data) : i = j :=
  natStr_inj (show natStr i = natStr j from congrArg String.mk h)

theorem secId_inj {i j : Nat} (h : secId "" i = secId "" j) : i = j := by
  have hd := congrArg String.data h
  rw [secId_data, secId_data] at hd
  simp only [List.cons.injEq, true_and] at hd
  exact natStr_of_data hd

theorem lmId_inj {i j : Nat} (h : lmId "" i = lmId "" j) : i = j := by
  have hd := congrArg String.data h
  rw [lmId_data, lmId_data] at hd
  simp only [List.cons.injEq, true_and] at hd
  exact natStr_of_data hd

theorem laId_inj {i j : Nat} (h : laId "" i = laId "" j) : i = j := by
  have hd := congrArg String.data h
  rw [laId_data, laId_data] at hd
  simp only [List.cons.injEq, true_and] at hd
  exact natStr_of_data hd

theorem secId_ne_root (i : Nat) : secId "" i ≠ rootId "" := by
  refine ne_of_data_ne ?_
  rw [secId_data, rootId_empty]
  intro h
  injection h with h1 _
  exact absurd h1 (by decide)

theorem swId_ne_root (i : Nat) : swId "" i ≠ rootId "" := by
  refine ne_of_data_ne ?_
  rw [swId_data, rootId_empty]
  intro h
  injection h with h1 h2
  injection h2 with h3 _
  exact absurd h3 (by decide)

theorem lmId_ne_root (i : Nat) : lmId "" i ≠ rootId "" := by
  refine ne_of_data_ne ?_
  rw [lmId_data, rootId_empty]
  intro h
  injection h with h1 _
  exact absurd h1 (by decide)

theorem laId_ne_root (i : Nat) : laId "" i ≠ rootId "" := by
  refine ne_of_data_ne ?_
  rw [laId_data, rootId_empty]
  intro h
  injection h with h1 _
  exact absurd h1 (by decide)

theorem secId_ne_swId (i j : Nat) : secId "" i ≠ swId "" j := by
  refine ne_of_data_ne ?_
  rw [secId_data, swId_data]
  intro h
  injection h with _ h2
  injection h2 with h3 _
  exact absurd h3 (by decide)

theorem secId_ne_lmId (i j : Nat) : secId "" i ≠ lmId "" j := by
  refine ne_of_data_ne ?_
  rw [secId_data, lmId_data]
  intro h
  injection h with h1 _
  exact absurd h1 (by decide)

theorem secId_ne_laId (i j : Nat) : secId "" i ≠ laId "" j := by
  refine ne_of_data_ne ?_
  rw [secId_data, laId_data]
  intro h
  injection h with h1 _
  exact absurd h1 (by decide)

theorem swId_ne_lmId (i j : Nat) : swId "" i ≠ lmId "" j := by
  refine ne_of_data_ne ?_
  rw [swId_data, lmId_data]
  intro h
  injection h with h1 _
  exact absurd h1 (by decide)

theorem swId_ne_laId (i j : Nat) : swId "" i ≠ laId "" j := by
  refine ne_of_data_ne ?_
  rw [swId_data, laId_data]
  intro h
  injection h with h1 _
  exact absurd h1 (by decide)

theorem lmId_ne_laId (i j : Nat) : lmId "" i ≠ laId "" j := by
  refine ne_of_data_ne ?_
  rw [lmId_data, laId_data]
  intro h
  injection h with _ h2
  injection h2 with h3 _
  exact absurd h3 (by decide)

/-- The invariant of the software-node phases: node ids mirror the `sw_added`
set, which is duplicate-free and contains only software ids below `m`. -/
def GBInv (pre : String) (m : Nat) (st : GB) : Prop :=
  st.nodes.map GraphNode.id = st.added ∧ st.added.Nodup ∧
  ∀ x ∈ st.added, ∃ j, j < m ∧ x = swId pre j

theorem ensureSw_inv {pre : String} {m : Nat} {st : GB} (idx : Nat) (sw : String)
    (hidx : idx < m) (h : GBInv pre m st) : GBInv pre m (ensureSw pre st idx sw) := by
  unfold ensureSw
  split_ifs with hc
  · exact h
  · obtain ⟨h1, h2, h3⟩ := h
    refine ⟨?_, ?_, ?_⟩
    · simp only [List.map_append, h1, List.map_cons, List.map_nil]
    · refine nodup_append_one h2 ?_
      intro hmem
      exact hc (listContains_iff.mpr hmem)
    · intro x hx
      rcases List.mem_append.mp hx with hx | hx
      · exact h3 x hx
      · rw [List.mem_singleton] at hx
        exact ⟨idx, hidx, hx⟩

theorem ensureSw_added_mono {pre : String} {st : GB} {idx : Nat} {sw x : String}
    (h : x ∈ st.added) : x ∈ (ensureSw pre st idx sw).added := by
  unfold ensureSw
  split_ifs with hc
  · exact h
  · exact List.mem_append_left _ h

theorem ensureSw_mem_added {pre : String} (st : GB) (idx : Nat) (sw : String) :
    swId pre idx ∈ (ensureSw pre st idx sw).added := by
  unfold ensureSw
  split_ifs with hc
  · exact listContains_iff.mp hc
  · exact List.mem_append_right _ (List.mem_singleton.mpr rfl)

theorem ensureSw_edges {pre : String} (st : GB) (idx : Nat) (sw : String) :
    (ensureSw pre st idx sw).edges = st.edges := by
  unfold ensureSw
  split_ifs with hc <;> rfl

theorem stepB_inv {pre : String} {software : List String} {i : Nat} {st : GB}
    (sw : String) (h : GBInv pre software.length st) :
    GBInv pre software.length (stepB pre software i st sw) := by
  unfold stepB
  split_ifs with hmem
  · have hidx : software.indexOf sw < software.length :=
      List.indexOf_lt_length.mpr hmem
    have he := ensureSw_inv (software.indexOf sw) sw hidx h
    exact ⟨he.1, he.2.1, he.2.2⟩
  · exact h

theorem stepB_added_mono {pre : String} {software : List String} {i : Nat} {st : GB}
    {sw x : String} (h : x ∈ st.added) : x ∈ (stepB pre software i st sw).added := by
  unfold stepB
  split_ifs with hmem
  · exact ensureSw_added_mono h
  · exact h

theorem linkedFold_inv {pre : String} {software : List String} {i : Nat} :
    ∀ (l : List String) (st : GB), GBInv pre software.length st →
      GBInv pre software.length (linkedFold pre software i st l)
  | [], st, h => h
  | sw :: rest, st, h =>
    linkedFold_inv rest (stepB pre software i st sw) (stepB_inv sw h)

theorem linkedFold_added_mono {pre : String} {software : List String} {i : Nat} :
    ∀ (l : List String) (st : GB) {x : String}, x ∈ st.added →
      x ∈ (linkedFold pre software i st l).added
  | [], _, _, h => h
  | sw :: rest, st, x, h =>
    linkedFold_added_mono rest (stepB pre software i st sw) (stepB_added_mono h)

theorem phaseBFrom_inv {pre : String} {software : List String} :
    ∀ (l : List SectionDetail) (i : Nat) (st : GB), GBInv pre software.length st →
      GBInv pre software.length (phaseBFrom pre software i st l)
  | [], _, _, h => h
  | sec :: rest, i, st, h =>
    phaseBFrom_inv rest (i + 1) _ (linkedFold_inv sec.linked_software st h)

theorem phaseBFrom_added_mono {pre : String} {software : List String} :
    ∀ (l : List SectionDetail) (i : Nat) (st : GB) {x : String}, x ∈ st.added →
      x ∈ (phaseBFrom pre software i st l).added
  | [], _, _, _, h => h
  | sec :: rest, i, st, x, h =>
    phaseBFrom_added_mono rest (i + 1) _ (linkedFold_added_mono sec.linked_software st h)

theorem phaseCFrom_inv {pre : String} {m : Nat} :
    ∀ (l : List String) (idx : Nat) (st : GB), idx + l.length ≤ m →
      GBInv pre m st → GBInv pre m (phaseCFrom pre idx st l)
  | [], _, _, _, h => h
  | sw :: rest, idx, st, hb, h => by
    unfold phaseCFrom
    refine phaseCFrom_inv rest (idx + 1) _
      (by simp only [List.length_cons] at hb; omega) ?_
    split_ifs with hc
    · exact h
    · obtain ⟨h1, h2, h3⟩ := h
      refine ⟨?_, ?_, ?_⟩
      · simp only [List.map_append, h1, List.map_cons, List.map_nil]
      · refine nodup_append_one h2 ?_
        intro hmem
        exact hc (listContains_iff.mpr hmem)
      · intro x hx
        rcases List.mem_append.mp hx with hx | hx
        · exact h3 x hx
        · rw [List.mem_singleton] at hx
          exact ⟨idx, by simp only [List.length_cons] at hb; omega, hx⟩

theorem phaseCFrom_added_mono {pre : String} :
    ∀ (l : List String) (idx : Nat) (st : GB) {x : String}, x ∈ st.added →
      x ∈ (phaseCFrom pre idx st l).added
  | [], _, _, _, h => h
  | sw :: rest, idx, st, x, h => by
    unfold phaseCFrom
    refine phaseCFrom_added_mono rest (idx + 1) _ ?_
    split_ifs with hc
    · exact h
    · exact List.mem_append_left _ h

/-- Edge well-formedness during the software phases: sources are the root or
a section id below `n`, targets are already-added software ids. -/
def EdgeOK (pre : String) (n : Nat) (added : List String) (e : GraphEdge) : Prop :=
  (e.source = rootId pre ∨ ∃ i, i < n ∧ e.source = secId pre i) ∧ e.target ∈ added

/-- Provenance of "использует" edges: they arise from a linked software name
present in the record's software list. -/
def UseOK (pre : String) (sections : List SectionDetail) (software : List String)
    (e : GraphEdge) : Prop :=
  e.label = some "использует" →
    ∃ i sec sw, sections.get? i = some sec ∧ sw ∈ sec.linked_software ∧
      sw ∈ software ∧ e.source = secId pre i ∧
      e.target = swId pre (software.indexOf sw)

theorem stepB_edges_ok {pre : String} {software : List String} {i n : Nat} {st : GB}
    (sw : String) (hin : i < n)
    (h : ∀ e ∈ st.edges, EdgeOK pre n st.added e) :
    ∀ e ∈ (stepB pre software i st sw).edges,
      EdgeOK pre n (stepB pre software i st sw).added e := by
  unfold stepB
  split_ifs with hmem
  · intro e he
    rw [show ({ ensureSw pre st (software.indexOf sw) sw with
        edges := (ensureSw pre st (software.indexOf sw) sw).edges ++
          [⟨secId pre i, swId pre (software.indexOf sw), some "использует"⟩] } : GB).edges =
        st.edges ++ [⟨secId pre i, swId pre (software.indexOf sw), some "использует"⟩]
      from by rw [ensureSw_edges]] at he
    rcases List.mem_append.mp he with he | he
    · obtain ⟨hs, ht⟩ := h e he
      exact ⟨hs, ensureSw_added_mono ht⟩
    · rw [List.mem_singleton] at he
      subst he
      exact ⟨Or.inr ⟨i, hin, rfl⟩, ensureSw_mem_added st (software.indexOf sw) sw⟩
  · exact h

theorem linkedFold_edges_ok {pre : String} {software : List String} {i n : Nat}
    (hin : i < n) : ∀ (l : List String) (st : GB),
      (∀ e ∈ st.edges, EdgeOK pre n st.added e) →
      ∀ e ∈ (linkedFold pre software i st l).edges,
        EdgeOK pre n (linkedFold pre software i st l).added e
  | [], _, h => h
  | sw :: rest, st, h =>
    linkedFold_edges_ok hin rest (stepB pre software i st sw) (stepB_edges_ok sw hin h)

theorem phaseBFrom_edges_ok {pre : String} {software : List String} {n : Nat} :
    ∀ (l : List SectionDetail) (i : Nat) (st : GB), i + l.length ≤ n →
      (∀ e ∈ st.edges, EdgeOK pre n st.added e) →
      ∀ e ∈ (phaseBFrom pre software i st l).edges,
        EdgeOK pre n (phaseBFrom pre software i st l).added e
  | [], _, _, _, h => h
  | sec :: rest, i, st, hb, h =>
    phaseBFrom_edges_ok rest (i + 1) _
      (by simp only [List.length_cons] at hb; omega)
      (linkedFold_edges_ok (by simp only [List.length_cons] at hb; omega)
        sec.linked_software st h)

theorem phaseCFrom_edges_ok {pre : String} {n : Nat} :
    ∀ (l : List String) (idx : Nat) (st : GB),
      (∀ e ∈ st.edges, EdgeOK pre n st.added e) →
      ∀ e ∈ (phaseCFrom pre idx st l).edges,
        EdgeOK pre n (phaseCFrom pre idx st l).added e
  | [], _, _, h => h
  | sw :: rest, idx, st, h => by
    unfold phaseCFrom
    refine phaseCFrom_edges_ok rest (idx + 1) _ ?_
    split_ifs with hc
    · exact h
    · intro e he
      rcases List.mem_append.mp he with he | he
      · obtain ⟨hs, ht⟩ := h e he
        exact ⟨hs, List.mem_append_left _ ht⟩
      · rw [List.mem_singleton] at he
        subst he
        exact ⟨Or.inl rfl, List.mem_append_right _ (List.mem_singleton.mpr rfl)⟩

theorem stepB_use_ok {pre : String} {software : List String} {i : Nat} {st : GB}
    {sections : List SectionDetail} {sec : SectionDetail} (sw : String)
    (hsec : sections.get? i = some sec) (hsw : sw ∈ sec.linked_software)
    (h : ∀ e ∈ st.edges, UseOK pre sections software e) :
    ∀ e ∈ (stepB pre software i st sw).edges, UseOK pre sections software e := by
  unfold stepB
  split_ifs with hmem
  · intro e he
    rw [show ({ ensureSw pre st (software.indexOf sw) sw with
        edges := (ensureSw pre st (software.indexOf sw) sw).edges ++
          [⟨secId pre i, swId pre (software.indexOf sw), some "использует"⟩] } : GB).edges =
        st.edges ++ [⟨secId pre i, swId pre (software.indexOf sw), some "использует"⟩]
      from by rw [ensureSw_edges]] at he
    rcases List.mem_append.mp he with he | he
    · exact h e he
    · rw [List.mem_singleton] at he
      subst he
      exact fun _ => ⟨i, sec, sw, hsec, hsw, hmem, rfl, rfl⟩
  · exact h

theorem linkedFold_use_ok {pre : String} {software : List String} {i : Nat}
    {sections : List SectionDetail} {sec : SectionDetail}
    (hsec : sections.get? i = some sec) :
    ∀ (l : List String) (st : GB), (∀ x ∈ l, x ∈ sec.linked_software) →
      (∀ e ∈ st.edges, UseOK pre sections software e) →
      ∀ e ∈ (linkedFold pre software i st l).edges, UseOK pre sections software e
  | [], _, _, h => h
  | sw :: rest, st, hl, h =>
    linkedFold_use_ok hsec rest (stepB pre software i st sw)
      (fun x hx => hl x (List.mem_cons_of_mem _ hx))
      (stepB_use_ok sw hsec (hl sw (List.mem_cons_self _ _)) h)

theorem phaseBFrom_use_ok {pre : String} {software : List String}
    {sections : List SectionDetail} :
    ∀ (l : List SectionDetail) (i : Nat) (st : GB),
      (∀ k sec', l.get? k = some sec' → sections.get? (i + k) = some sec') →
      (∀ e ∈ st.edges, UseOK pre sections software e) →
      ∀ e ∈ (phaseBFrom pre software i st l).edges, UseOK pre sections software e
  | [], _, _, _, h => h
  | sec :: rest, i, st, hget, h =>
    phaseBFrom_use_ok rest (i + 1) _
      (fun k sec' hk => by
        have := hget (k + 1) sec' (by simpa using hk)
        rwa [show i + (k + 1) = i + 1 + k from by omega] at this)
      (linkedFold_use_ok
        (by simpa using hget 0 sec rfl)
        sec.linked_software st (fun x hx => hx) h)

theorem phaseCFrom_use_ok {pre : String} {software : List String}
    {sections : List SectionDetail} :
    ∀ (l : List String) (idx : Nat) (st : GB),
      (∀ e ∈ st.edges, UseOK pre sections software e) →
      ∀ e ∈ (phaseCFrom pre idx st l).edges, UseOK pre sections software e
  | [], _, _, h => h
  | sw :: rest, idx, st, h => by
    unfold phaseCFrom
    refine phaseCFrom_use_ok rest (idx + 1) _ ?_
    split_ifs with hc
    · exact h
    · intro e he
      rcases List.mem_append.mp he with he | he
      · exact h e he
      · rw [List.mem_singleton] at he
        subst he
        intro hlab
        exact absurd hlab (by simp)

theorem secId_mem_map {pre : String} :
    ∀ (l : List SectionDetail) (i k : Nat), k < l.length →
      secId pre (i + k) ∈ (secNodesFrom pre i l).map GraphNode.id
  | [], _, _, h => absurd h (by simp)
  | sec :: rest, i, 0, _ => by
    simp [secNodesFrom]
  | sec :: rest, i, k + 1, h => by
    simp only [secNodesFrom, List.map_cons, List.mem_cons]
    right
    rw [show i + (k + 1) = i + 1 + k from by omega]
    exact secId_mem_map rest (i + 1) k (by simpa using h)

theorem mem_map_secNodes {pre : String} :
    ∀ {l : List SectionDetail} {i : Nat} {x : String},
      x ∈ (secNodesFrom pre i l).map GraphNode.id →
      ∃ k, i ≤ k ∧ k < i + l.length ∧ x = secId pre k := by
  intro l
  induction l with
  | nil => intro i x h; simp [secNodesFrom] at h
  | cons sec rest ih =>
    intro i x h
    simp only [secNodesFrom, List.map_cons, List.mem_cons] at h
    rcases h with rfl | h
    · exact ⟨i, Nat.le_refl i, by simp, rfl⟩
    · obtain ⟨k, hk1, hk2, hx⟩ := ih h
      exact ⟨k, by omega, by simp only [List.length_cons]; omega, hx⟩

theorem nodup_secIds : ∀ (l : List SectionDetail) (i : Nat),
    ((secNodesFrom "" i l).map GraphNode.id).Nodup
  | [], _ => by simp [secNodesFrom]
  | sec :: rest, i => by
    simp only [secNodesFrom, List.map_cons, List.nodup_cons]
    refine ⟨?_, nodup_secIds rest (i + 1)⟩
    intro hmem
    obtain ⟨k, hk1, _, hx⟩ := mem_map_secNodes hmem
    have := secId_inj hx
    omega

theorem litId_mem_map {mkId : Nat → String} {ty : String} :
    ∀ (l : List LiteratureEntry) (i k : Nat), k < l.length →
      mkId (i + k) ∈ (litNodesFrom mkId ty i l).map GraphNode.id
  | [], _, _, h => absurd h (by simp)
  | lit :: rest, i, 0, _ => by
    simp [litNodesFrom]
  | lit :: rest, i, k + 1, h => by
    simp only [litNodesFrom, List.map_cons, List.mem_cons]
    right
    rw [show i + (k + 1) = i + 1 + k from by omega]
    exact litId_mem_map rest (i + 1) k (by simpa using h)

theorem mem_map_litNodes {mkId : Nat → String} {ty : String} :
    ∀ {l : List LiteratureEntry} {i : Nat} {x : String},
      x ∈ (litNodesFrom mkId ty i l).map GraphNode.id →
      ∃ k, i ≤ k ∧ k < i + l.length ∧ x = mkId k := by
  intro l
  induction l with
  | nil => intro i x h; simp [litNodesFrom] at h
  | cons lit rest ih =>
    intro i x h
    simp only [litNodesFrom, List.map_cons, List.mem_cons] at h
    rcases h with rfl | h
    · exact ⟨i, Nat.le_refl i, by simp, rfl⟩
    · obtain ⟨k, hk1, hk2, hx⟩ := ih h
      exact ⟨k, by omega, by simp only [List.length_cons]; omega, hx⟩

theorem nodup_litIds {mkId : Nat → String} {ty : String}
    (hinj : ∀ a b, mkId a = mkId b → a = b) :
    ∀ (l : List LiteratureEntry) (i : Nat),
      ((litNodesFrom mkId ty i l).map GraphNode.id).Nodup
  | [], _ => by simp [litNodesFrom]
  | lit :: rest, i => by
    simp only [litNodesFrom, List.map_cons, List.nodup_cons]
    refine ⟨?_, nodup_litIds hinj rest (i + 1)⟩
    intro hmem
    obtain ⟨k, hk1, _, hx⟩ := mem_map_litNodes hmem
    have := hinj _ _ hx
    omega

theorem mem_secEdgesFrom {pre : String} :
    ∀ {l : List SectionDetail} {i : Nat} {e : GraphEdge}, e ∈ secEdgesFrom pre i l →
      e.source = rootId pre ∧ (∃ k, k < l.length ∧ e.target = secId pre (i + k)) ∧
        e.label = none := by
  intro l
  induction l with
  | nil => intro i e h; simp [secEdgesFrom] at h
  | cons sec rest ih =>
    intro i e h
    simp only [secEdgesFrom, List.mem_cons] at h
    rcases h with rfl | h
    · exact ⟨rfl, ⟨0, by simp, by simp⟩, rfl⟩
    · obtain ⟨h1, ⟨k, hk, h2⟩, h3⟩ := ih h
      refine ⟨h1, ⟨k + 1, by simp only [List.length_cons]; omega, ?_⟩, h3⟩
      rwa [show i + (k + 1) = i + 1 + k from by omega]

theorem mem_litEdgesFrom {pre : String} {mkId : Nat → String} {lab : String} :
    ∀ {l : List LiteratureEntry} {i : Nat} {e : GraphEdge},
      e ∈ litEdgesFrom pre mkId lab i l →
      e.source = rootId pre ∧ (∃ k, k < l.length ∧ e.target = mkId (i + k)) ∧
        (e.label = some lab ∨ e.label = none) := by
  intro l
  induction l with
  | nil => intro i e h; simp [litEdgesFrom] at h
  | cons lit rest ih =>
    intro i e h
    simp only [litEdgesFrom, List.mem_cons] at h
    rcases h with rfl | h
    · refine ⟨rfl, ⟨0, by simp, by simp⟩, ?_⟩
      split_ifs <;> simp
    · obtain ⟨h1, ⟨k, hk, h2⟩, h3⟩ := ih h
      refine ⟨h1, ⟨k + 1, by simp only [List.length_cons]; omega, ?_⟩, h3⟩
      rwa [show i + (k + 1) = i + 1 + k from by omega]

/-- C10: the single-document graph is well-formed: node ids are pairwise
distinct, every edge's endpoints are ids of nodes in the list, and every
section-to-software ("использует") edge comes from a linked software name
present in the record's software list. -/
theorem C10_graph_theorem (data : DisciplineData) :
    (((build_graph data "").1.map GraphNode.id).Nodup) ∧
    (∀ e ∈ (build_graph data "").2,
      (∃ nd ∈ (build_graph data "").1, nd.id = e.source) ∧
      (∃ nd ∈ (build_graph data "").1, nd.id = e.target)) ∧
    (∀ e ∈ (build_graph data "").2, e.label = some "использует" →
      ∃ i sec sw, data.sections.get? i = some sec ∧ sw ∈ sec.linked_software ∧
        sw ∈ data.software ∧ e.source = secId "" i ∧
        e.target = swId "" (data.software.indexOf sw)) := by
  have hInit : GBInv "" data.software.length ⟨[], [], []⟩ :=
    ⟨rfl, List.nodup_nil, by simp⟩
  have hBinv : GBInv "" data.software.length
      (phaseBFrom "" data.software 0 ⟨[], [], []⟩ data.sections) :=
    phaseBFrom_inv data.sections 0 ⟨[], [], []⟩ hInit
  have hCinv : GBInv "" data.software.length
      (phaseCFrom "" 0 (phaseBFrom "" data.software 0 ⟨[], [], []⟩ data.sections)
        data.software) :=
    phaseCFrom_inv data.software 0 _ (by simp) hBinv
  have hEdge : ∀ e ∈ (phaseCFrom "" 0
      (phaseBFrom "" data.software 0 ⟨[], [], []⟩ data.sections) data.software).edges,
      EdgeOK "" data.sections.length
        (phaseCFrom "" 0 (phaseBFrom "" data.software 0 ⟨[], [], []⟩ data.sections)
          data.software).added e := by
    refine phaseCFrom_edges_ok data.software 0 _ ?_
    refine phaseBFrom_edges_ok data.sections 0 ⟨[], [], []⟩ (by simp) ?_
    intro e he
    exact absurd he (List.not_mem_nil e)
  have hUse : ∀ e ∈ (phaseCFrom "" 0
      (phaseBFrom "" data.software 0 ⟨[], [], []⟩ data.sections) data.software).edges,
      UseOK "" data.sections data.software e := by
    refine phaseCFrom_use_ok data.software 0 _ ?_
    refine phaseBFrom_use_ok data.sections 0 ⟨[], [], []⟩
      (fun k sec' hk => by simpa using hk) ?_
    intro e he
    exact absurd he (List.not_mem_nil e)
  have hbg : build_graph data "" =
      (⟨rootId "", takeStr 60 data.name, "discipline"⟩ ::
        secNodesFrom "" 0 data.sections ++
        (phaseCFrom "" 0 (phaseBFrom "" data.software 0 ⟨[], [], []⟩ data.sections)
          data.software).nodes ++
        litNodesFrom (lmId "") "lit_main" 0 (data.literature.main.take 6) ++
        litNodesFrom (laId "") "lit_add" 0 (data.literature.additional.take 5),
       secEdgesFrom "" 0 data.sections ++
        (phaseCFrom "" 0 (phaseBFrom "" data.software 0 ⟨[], [], []⟩ data.sections)
          data.software).edges ++
        litEdgesFrom "" (lmId "") "осн." 0 (data.literature.main.take 6) ++
        litEdgesFrom "" (laId "") "доп." 0 (data.literature.additional.take 5)) := rfl
  rw [hbg]
  dsimp only
  simp only [List.map_cons, List.map_append, List.cons_append, List.append_assoc]
  have hNode : ∀ x : String,
      (x = rootId "" ∨ (∃ k, k < data.sections.length ∧ x = secId "" k) ∨
       x ∈ (phaseCFrom "" 0 (phaseBFrom "" data.software 0 ⟨[], [], []⟩ data.sections)
         data.software).added ∨
       (∃ k, k < (data.literature.main.take 6).length ∧ x = lmId "" k) ∨
       (∃ k, k < (data.literature.additional.take 5).length ∧ x = laId "" k)) →
      ∃ nd ∈ ((⟨rootId "", takeStr 60 data.name, "discipline"⟩ : GraphNode) ::
        (secNodesFrom "" 0 data.sections ++
         ((phaseCFrom "" 0 (phaseBFrom "" data.software 0 ⟨[], [], []⟩ data.sections)
           data.software).nodes ++
          (litNodesFrom (lmId "") "lit_main" 0 (data.literature.main.take 6) ++
           litNodesFrom (laId "") "lit_add" 0 (data.literature.additional.take 5))))),
        nd.id = x := by
    intro x hx
    rcases hx with rfl | ⟨k, hk, rfl⟩ | hx | ⟨k, hk, rfl⟩ | ⟨k, hk, rfl⟩
    · exact ⟨_, List.mem_cons_self _ _, rfl⟩
    · obtain ⟨nd, hnd, hid⟩ := List.mem_map.mp (secId_mem_map data.sections 0 k hk)
      exact ⟨nd, List.mem_cons_of_mem _ (List.mem_append_left _ hnd), by simpa using hid⟩
    · rw [← hCinv.1] at hx
      obtain ⟨nd, hnd, hid⟩ := List.mem_map.mp hx
      exact ⟨nd, List.mem_cons_of_mem _
        (List.mem_append_right _ (List.mem_append_left _ hnd)), hid⟩
    · obtain ⟨nd, hnd, hid⟩ := List.mem_map.mp
        (litId_mem_map (data.literature.main.take 6) 0 k hk)
      exact ⟨nd, List.mem_cons_of_mem _
        (List.mem_append_right _ (List.mem_append_right _ (List.mem_append_left _ hnd))),
        by simpa using hid⟩
    · obtain ⟨nd, hnd, hid⟩ := List.mem_map.mp
        (litId_mem_map (data.literature.additional.take 5) 0 k hk)
      exact ⟨nd, List.mem_cons_of_mem _
        (List.mem_append_right _ (List.mem_append_right _ (List.mem_append_right _ hnd))),
        by simpa using hid⟩
  refine ⟨?_, ?_, ?_⟩
  · -- pairwise-distinct node ids
    rw [List.nodup_cons]
    constructor
    · intro hmem
      rcases List.mem_append.mp hmem with hx | hx
      · obtain ⟨k, _, _, h⟩ := mem_map_secNodes hx
        exact secId_ne_root k h.symm
      rcases List.mem_append.mp hx with hx | hx
      · rw [hCinv.1] at hx
        obtain ⟨j, _, h⟩ := hCinv.2.2 _ hx
        exact swId_ne_root j h.symm
      rcases List.mem_append.mp hx with hx | hx
      · obtain ⟨k, _, _, h⟩ := mem_map_litNodes hx
        exact lmId_ne_root k h.symm
      · obtain ⟨k, _, _, h⟩ := mem_map_litNodes hx
        exact laId_ne_root k h.symm
    · rw [List.nodup_append, List.nodup_append, List.nodup_append]
      refine ⟨nodup_secIds data.sections 0,
        ⟨?_, ⟨nodup_litIds (fun a b h => lmId_inj h) _ 0,
              nodup_litIds (fun a b h => laId_inj h) _ 0, ?_⟩, ?_⟩, ?_⟩
      · rw [hCinv.1]
        exact hCinv.2.1
      · -- lit_main ids vs lit_add ids
        intro x hx1 hx2
        obtain ⟨k, _, _, h1⟩ := mem_map_litNodes hx1
        obtain ⟨j, _, _, h2⟩ := mem_map_litNodes hx2
        exact lmId_ne_laId k j (h1.symm.trans h2)
      · -- software ids vs lit ids
        intro x hx1 hx2
        rw [hCinv.1] at hx1
        obtain ⟨j, _, h1⟩ := hCinv.2.2 _ hx1
        rcases List.mem_append.mp hx2 with hx2 | hx2
        · obtain ⟨k, _, _, h2⟩ := mem_map_litNodes hx2
          exact swId_ne_lmId j k (h1.symm.trans h2)
        · obtain ⟨k, _, _, h2⟩ := mem_map_litNodes hx2
          exact swId_ne_laId j k (h1.symm.trans h2)
      · -- section ids vs everything after them
        intro x hx1 hx2
        obtain ⟨k, _, _, h1⟩ := mem_map_secNodes hx1
        rcases List.mem_append.mp hx2 with hx2 | hx2
        · rw [hCinv.1] at hx2
          obtain ⟨j, _, h2⟩ := hCinv.2.2 _ hx2
          exact secId_ne_swId k j (h1.symm.trans h2)
        rcases List.mem_append.mp hx2 with hx2 | hx2
        · obtain ⟨j, _, _, h2⟩ := mem_map_litNodes hx2
          exact secId_ne_lmId k j (h1.symm.trans h2)
        · obtain ⟨j, _, _, h2⟩ := mem_map_litNodes hx2
          exact secId_ne_laId k j (h1.symm.trans h2)
  · -- every edge endpoint is the id of some node
    intro e he
    rcases List.mem_append.mp he with he | he
    · obtain ⟨h1, ⟨k, hk, h2⟩, _⟩ := mem_secEdgesFrom he
      refine ⟨?_, ?_⟩
      · rw [h1]
        exact hNode _ (Or.inl rfl)
      · rw [h2]
        exact hNode _ (Or.inr (Or.inl ⟨k, hk, by rw [Nat.zero_add]⟩))
    rcases List.mem_append.mp he with he | he
    · obtain ⟨hsrc, htgt⟩ := hEdge e he
      refine ⟨?_, hNode _ (Or.inr (Or.inr (Or.inl htgt)))⟩
      rcases hsrc with h | ⟨i, hi, h⟩
      · rw [h]
        exact hNode _ (Or.inl rfl)
      · rw [h]
        exact hNode _ (Or.inr (Or.inl ⟨i, hi, rfl⟩))
    rcases List.mem_append.mp he with he | he
    · obtain ⟨h1, ⟨k, hk, h2⟩, _⟩ := mem_litEdgesFrom he
      refine ⟨?_, ?_⟩
      · rw [h1]
        exact hNode _ (Or.inl rfl)
      · rw [h2]
        exact hNode _ (Or.inr (Or.inr (Or.inr (Or.inl ⟨k, hk, by rw [Nat.zero_add]⟩))))
    · obtain ⟨h1, ⟨k, hk, h2⟩, _⟩ := mem_litEdgesFrom he
      refine ⟨?_, ?_⟩
      · rw [h1]
        exact hNode _ (Or.inl rfl)
      · rw [h2]
        exact hNode _
          (Or.inr (Or.inr (Or.inr (Or.inr ⟨k, hk, by rw [Nat.zero_add]⟩))))
  · -- provenance of "использует" edges
    intro e he hlab
    rcases List.mem_append.mp he with he | he
    · obtain ⟨_, _, hnone⟩ := mem_secEdgesFrom he
      rw [hnone] at hlab
      exact Option.noConfusion hlab
    rcases List.mem_append.mp he with he | he
    · exact hUse e he hlab
    rcases List.mem_append.mp he with he | he
    · obtain ⟨_, _, hl⟩ := mem_litEdgesFrom he
      rcases hl with hl | hl
      · rw [hl] at hlab
        exact absurd (Option.some.inj hlab) (by decide)
      · rw [hl] at hlab
        exact Option.noConfusion hlab
    · obtain ⟨_, _, hl⟩ := mem_litEdgesFrom he
      rcases hl with hl | hl
      · rw [hl] at hlab
        exact absurd (Option.some.inj hlab) (by decide)
      · rw [hl] at hlab
        exact Option.noConfusion hlab
